import Mathlib

/-!
Shallow embedding of `src/graph.py` (class `Graph`): an adjacency-list graph
with mutation operations (`add_vertex`, `add_edge`, `remove_edge`,
`remove_vertex`), queries (`has_vertex`, `has_edge`, `get_neighbors`,
`get_vertices`, `get_edges`) and traversals (`bfs`, `dfs`, `dfs_recursive`,
`bfs_path`).

The Python dict `adjacency_list` is modelled as an insertion-ordered
association list `List (V × List V)`; Python dicts preserve insertion order,
which matters for `get_vertices`, `get_edges` and iteration in
`remove_vertex`.  Loops (`while queue`, `while stack`, recursion in
`dfs_helper`, the parent-chain walk in `bfs_path`) are given explicit fuel so
that every definition is structurally recursive and kernel-evaluable; fuel
bounds are chosen so that, as proved below, the fuel is never exhausted on the
states the code actually reaches.
-/

namespace GraphPy

variable {V : Type} [DecidableEq V]

/-- The graph data structure of `graph.py`: `self.directed` and
`self.adjacency_list` (a dict from vertex to list of neighbors, modelled as an
insertion-ordered association list). -/
structure Graph (V : Type) where
  directed : Bool
  adjacency_list : List (V × List V)

/-- Python `Graph(directed)` constructor: empty adjacency dict. -/
def Graph.empty (directed : Bool) : Graph V := ⟨directed, []⟩

/-- Python `v in dict`: does the association list have key `v`? -/
def hasKey : List (V × List V) → V → Bool
  | [], _ => false
  | (k, _) :: rest, v => if k = v then true else hasKey rest v

/-- Python `dict.get(v, [])` / `dict[v]` on a present key: value of the first
entry with key `v`, defaulting to `[]`. -/
def adjGetL : List (V × List V) → V → List V
  | [], _ => []
  | (k, ns) :: rest, v => if k = v then ns else adjGetL rest v

/-- Python `dict[v] = ns` on a present key `v`: replace the value of the
(first) entry with key `v`. -/
def updateAdj : List (V × List V) → V → List V → List (V × List V)
  | [], _, _ => []
  | (k, ns) :: rest, v, newNs =>
    if k = v then (k, newNs) :: rest else (k, ns) :: updateAdj rest v newNs

/-- Python `del dict[v]`: drop the entry with key `v`. -/
def removeKey : List (V × List V) → V → List (V × List V)
  | [], _ => []
  | (k, ns) :: rest, v => if k = v then rest else (k, ns) :: removeKey rest v

/-- Python `list.remove(x)`: remove the first occurrence of `x`. -/
def removeFirst : List V → V → List V
  | [], _ => []
  | x :: xs, v => if x = v then xs else x :: removeFirst xs v

/-- `Graph.add_vertex`: register `v` with an empty neighbor list if absent;
no-op if present (dict insertion goes at the end, preserving order). -/
def add_vertex (g : Graph V) (v : V) : Graph V :=
  if hasKey g.adjacency_list v then g
  else { g with adjacency_list := g.adjacency_list ++ [(v, [])] }

/-- One append step of `Graph.add_edge`: `if b not in adjacency_list[a]:
adjacency_list[a].append(b)`. -/
def appendNbr (al : List (V × List V)) (a b : V) : List (V × List V) :=
  if b ∈ adjGetL al a then al else updateAdj al a (adjGetL al a ++ [b])

/-- `Graph.add_edge`: ensure both endpoints exist, append `v2` to
`adjacency_list[v1]` unless present, and (if undirected) append `v1` to
`adjacency_list[v2]` unless present — the second check reads the list already
updated by the first step, so a self-loop is not duplicated. -/
def add_edge (g : Graph V) (v1 v2 : V) : Graph V :=
  let al1 := (add_vertex (add_vertex g v1) v2).adjacency_list
  let al2 := appendNbr al1 v1 v2
  { g with adjacency_list := if g.directed = false then appendNbr al2 v2 v1 else al2 }

/-- One removal step of `Graph.remove_edge`: `if a in adjacency_list and
b in adjacency_list[a]: adjacency_list[a].remove(b)`. -/
def dropNbr (al : List (V × List V)) (a b : V) : List (V × List V) :=
  if hasKey al a = true ∧ b ∈ adjGetL al a
  then updateAdj al a (removeFirst (adjGetL al a) b)
  else al

/-- `Graph.remove_edge`: remove `v2` from `adjacency_list[v1]` if present, and
(if undirected) remove `v1` from `adjacency_list[v2]` if still present. -/
def remove_edge (g : Graph V) (v1 v2 : V) : Graph V :=
  let al1 := dropNbr g.adjacency_list v1 v2
  { g with adjacency_list := if g.directed = false then dropNbr al1 v2 v1 else al1 }

/-- `Graph.remove_vertex`: if present, purge `v` from every neighbor list
(Python `list.remove` of the first occurrence, guarded by membership) and
delete `v`'s own entry; no-op otherwise. -/
def remove_vertex (g : Graph V) (v : V) : Graph V :=
  if hasKey g.adjacency_list v then
    { g with adjacency_list :=
        removeKey (g.adjacency_list.map (fun p => (p.1, removeFirst p.2 v))) v }
  else g

/-- `Graph.get_neighbors`: `adjacency_list.get(vertex, [])`. -/
def get_neighbors (g : Graph V) (v : V) : List V := adjGetL g.adjacency_list v

/-- `Graph.has_vertex`. -/
def has_vertex (g : Graph V) (v : V) : Bool := hasKey g.adjacency_list v

/-- `Graph.has_edge`: `v1 in adjacency_list and v2 in adjacency_list[v1]`. -/
def has_edge (g : Graph V) (v1 v2 : V) : Bool :=
  hasKey g.adjacency_list v1 && decide (v2 ∈ adjGetL g.adjacency_list v1)

/-- `Graph.get_vertices`: keys in insertion order. -/
def get_vertices (g : Graph V) : List V := g.adjacency_list.map Prod.fst

/-- One append step of `Graph.get_edges`: directed graphs always append
`(v, n)`; undirected graphs skip it when the reverse pair was already
emitted. -/
def edgeStep (directed : Bool) (acc : List (V × V)) (p : V × V) : List (V × V) :=
  if directed then acc ++ [p]
  else if (p.2, p.1) ∈ acc then acc else acc ++ [p]

/-- Inner loop of `Graph.get_edges` over one vertex's neighbor list. -/
def innerEdges (directed : Bool) (v : V) : List V → List (V × V) → List (V × V)
  | [], acc => acc
  | n :: ns, acc => innerEdges directed v ns (edgeStep directed acc (v, n))

/-- Outer loop of `Graph.get_edges` over the adjacency dict in order. -/
def outerEdges (directed : Bool) : List (V × List V) → List (V × V) → List (V × V)
  | [], acc => acc
  | (v, ns) :: rest, acc => outerEdges directed rest (innerEdges directed v ns acc)

/-- `Graph.get_edges`. -/
def get_edges (g : Graph V) : List (V × V) := outerEdges g.directed g.adjacency_list []

/-- Size bookkeeping for fuel: an adjacency entry costs one pop plus one push
per neighbor. -/
def entrySize (p : V × List V) : Nat := 1 + p.2.length

/-- Fuel bound for the `bfs`/`dfs` loops: strictly more than the number of
loop iterations ever possible (one initial queue element plus at most one
push per adjacency entry of each vertex, each visited at most once). -/
def traverseFuel (g : Graph V) : Nat := 2 + (g.adjacency_list.map entrySize).sum

/-- Fuel potential of a traversal state: one unit per pending queue/stack
entry plus the size of every entry of a not-yet-visited key.  Every loop
iteration strictly decreases it (proof device for fuel sufficiency). -/
def potL (l : List (V × List V)) (vis : List V) : Nat :=
  ((l.filter (fun p => decide (p.1 ∉ vis))).map entrySize).sum

/-- The `while queue` loop of `Graph.bfs`: dequeue from the front; skip
visited vertices; otherwise mark visited, append to the result, return on the
target, else enqueue the not-yet-visited neighbors in stored order. -/
def bfsLoop (g : Graph V) (target : Option V) :
    Nat → List V → List V → List V → List V
  | 0, _, _, result => result
  | _ + 1, [], _, result => result
  | fuel + 1, v :: queue, visited, result =>
    if v ∈ visited then bfsLoop g target fuel queue visited result
    else if target = some v then result ++ [v]
    else bfsLoop g target fuel
      (queue ++ (adjGetL g.adjacency_list v).filter (fun n => decide (n ∉ v :: visited)))
      (v :: visited) (result ++ [v])

/-- `Graph.bfs`: empty result on a missing start, else run the queue loop
from `[start]`. -/
def bfs (g : Graph V) (start : V) (target : Option V) : List V :=
  if hasKey g.adjacency_list start then bfsLoop g target (traverseFuel g) [start] [] []
  else []

/-- The `while stack` loop of `Graph.dfs`: pop from the top; skip visited
vertices; otherwise mark visited, append to the result, return on the target,
else push the not-yet-visited neighbors in reversed stored order (so they pop
in stored order: the pushed block sits on top of the old stack). -/
def dfsLoop (g : Graph V) (target : Option V) :
    Nat → List V → List V → List V → List V
  | 0, _, _, result => result
  | _ + 1, [], _, result => result
  | fuel + 1, v :: stack, visited, result =>
    if v ∈ visited then dfsLoop g target fuel stack visited result
    else if target = some v then result ++ [v]
    else dfsLoop g target fuel
      ((adjGetL g.adjacency_list v).filter (fun n => decide (n ∉ v :: visited)) ++ stack)
      (v :: visited) (result ++ [v])

/-- `Graph.dfs`: empty result on a missing start, else run the stack loop
from `[start]`. -/
def dfs (g : Graph V) (start : V) (target : Option V) : List V :=
  if hasKey g.adjacency_list start then dfsLoop g target (traverseFuel g) [start] [] []
  else []

/-- The `for neighbor in adjacency_list[vertex]` loop inside `dfs_helper`,
abstracted over the recursive visit: process the neighbors left to right,
skipping visited ones, short-circuiting as soon as a visit reports the target
found.  State is `(visited, result, found)`. -/
def visitFold (visit : V → List V → List V → List V × List V × Bool) :
    List V → List V → List V → List V × List V × Bool
  | [], visited, result => (visited, result, false)
  | n :: ns, visited, result =>
    if n ∈ visited then visitFold visit ns visited result
    else
      match visit n visited result with
      | (vis1, res1, true) => (vis1, res1, true)
      | (vis1, res1, false) => visitFold visit ns vis1 res1

/-- `dfs_helper` of `Graph.dfs_recursive`: return unchanged on a visited
vertex; otherwise mark visited, append to the result, report found on the
target, else fold the visit over the stored neighbor list.  Fuel bounds the
recursion depth. -/
def dfsVisit (g : Graph V) (target : Option V) :
    Nat → V → List V → List V → List V × List V × Bool
  | 0, _, visited, result => (visited, result, false)
  | fuel + 1, v, visited, result =>
    if v ∈ visited then (visited, result, false)
    else if target = some v then (v :: visited, result ++ [v], true)
    else visitFold (dfsVisit g target fuel) (adjGetL g.adjacency_list v)
      (v :: visited) (result ++ [v])

/-- All vertices mentioned as neighbors anywhere in the adjacency dict. -/
def allNeighbors : List (V × List V) → List V
  | [] => []
  | (_, ns) :: rest => ns ++ allNeighbors rest

/-- Every vertex `dfs_recursive` can ever reach: the keys plus every listed
neighbor. -/
def universeList (g : Graph V) : List V :=
  g.adjacency_list.map Prod.fst ++ allNeighbors g.adjacency_list

/-- Fuel bound for the recursion depth of `dfs_helper`: strictly more than
the number of distinct vertices it can ever visit. -/
def recFuel (g : Graph V) : Nat := 1 + (universeList g).length

/-- Number of potentially visitable vertices not yet visited: the recursion
depth still available to `dfs_helper` (proof device for fuel sufficiency). -/
def unseen (g : Graph V) (vis : List V) : Nat :=
  ((universeList g).toFinset \ vis.toFinset).card

/-- `Graph.dfs_recursive`: empty result on a missing start, else the result
list accumulated by `dfs_helper(start)`. -/
def dfs_recursive (g : Graph V) (start : V) (target : Option V) : List V :=
  if hasKey g.adjacency_list start then (dfsVisit g target (recFuel g) start [] []).2.1
  else []

/-- Python `parent[current]` lookup in the dict of BFS parents
(values: `None` for the start vertex, a vertex otherwise). -/
def lookupP : List (V × Option V) → V → Option (Option V)
  | [], _ => none
  | (k, pv) :: rest, v => if k = v then some pv else lookupP rest v

/-- The path-reconstruction loop of `Graph.bfs_path`: collect `current`,
follow `parent[current]` until it is `None` (the start vertex).  The caller
reverses the collected list.  Fuel bounds the chain length. -/
def buildPath (parent : List (V × Option V)) : Nat → V → List V
  | 0, _ => []
  | fuel + 1, current =>
    match lookupP parent current with
    | some (some prev) => current :: buildPath parent fuel prev
    | _ => [current]

/-- The `for neighbor in adjacency_list[vertex]` loop of `Graph.bfs_path`:
each not-yet-visited neighbor is marked visited, given `vertex` as parent,
and either triggers immediate path reconstruction (if it is the target) or is
enqueued.  `Sum.inl` is the early return, `Sum.inr` the updated
`(visited, parent, queue)` state. -/
def scanNbrs (v target : V) :
    List V → List V → List (V × Option V) → List V →
    Sum (List V) (List V × List (V × Option V) × List V)
  | [], visited, parent, queue => Sum.inr (visited, parent, queue)
  | n :: ns, visited, parent, queue =>
    if n ∈ visited then scanNbrs v target ns visited parent queue
    else
      let parent1 := parent ++ [(n, some v)]
      if n = target then Sum.inl (buildPath parent1 parent1.length n).reverse
      else scanNbrs v target ns (n :: visited) parent1 (queue ++ [n])

/-- The `while queue` loop of `Graph.bfs_path`: dequeue a vertex and scan its
neighbors; return the reconstructed path the moment the target is discovered,
`None` when the queue empties. -/
def bfsPathLoop (g : Graph V) (target : V) :
    Nat → List V → List V → List (V × Option V) → Option (List V)
  | 0, _, _, _ => none
  | _ + 1, [], _, _ => none
  | fuel + 1, v :: queue, visited, parent =>
    match scanNbrs v target (adjGetL g.adjacency_list v) visited parent queue with
    | Sum.inl path => some path
    | Sum.inr (visited1, parent1, queue1) => bfsPathLoop g target fuel queue1 visited1 parent1

/-- Fuel bound for the `bfs_path` loop: strictly more than the number of
iterations possible (each iteration pops one queue entry; only fresh vertices
are ever enqueued, at most once each). -/
def pathFuel (g : Graph V) : Nat := 2 + g.adjacency_list.length

/-- `Graph.bfs_path`: `None` when either endpoint is missing, the singleton
path when `start == target`, else the BFS parent-tracking loop started with
`visited = {start}`, `queue = [start]`, `parent = {start: None}`. -/
def bfs_path (g : Graph V) (start target : V) : Option (List V) :=
  if hasKey g.adjacency_list start = false ∨ hasKey g.adjacency_list target = false then none
  else if start = target then some [start]
  else bfsPathLoop g target (pathFuel g) [start] [start] [(start, none)]

/-! Derived notions the claims speak about. -/

/-- Paths of exactly `n` edges through stored adjacency: `ReachableN g u n v`
means some walk of `n` edges leads from `u` to `v`. -/
inductive ReachableN (g : Graph V) : V → Nat → V → Prop
  | refl (v : V) : ReachableN g v 0 v
  | step {u w x : V} {n : Nat} :
      ReachableN g u n w → x ∈ adjGetL g.adjacency_list w → ReachableN g u (n + 1) x

/-- `v` is reachable from `u` along stored adjacency. -/
def Reachable (g : Graph V) (u v : V) : Prop := ∃ n, ReachableN g u n v

/-- `n` is the minimum number of edges on any walk from `u` to `v`. -/
def ShortestLen (g : Graph V) (u v : V) (n : Nat) : Prop :=
  ReachableN g u n v ∧ ∀ m, ReachableN g u m v → n ≤ m

/-- Number of dict keys not yet visited (fuel measure for the `bfs_path`
loop, where only genuine keys are ever enqueued on a closed graph). -/
def unseenKeys (g : Graph V) (vis : List V) : Nat :=
  ((g.adjacency_list.map Prod.fst).toFinset \ vis.toFinset).card

/-- The loop invariant of `bfs_path`'s breadth-first search, at current
frontier distance `D`: the queue holds discovered-but-unprocessed vertices at
distances `D` and `D + 1` in order; every discovered vertex is within
distance `D + 1`; every vertex within distance `D` is already discovered;
processed vertices have all neighbors discovered; and the parent dict `P`
records, for each discovered vertex, a discovering predecessor one step
closer to `start`. -/
structure PathInv (g : Graph V) (start target : V) (D : Nat)
    (q vis : List V) (P : List (V × Option V)) : Prop where
  qnodup : q.Nodup
  qsub : ∀ x ∈ q, x ∈ vis
  startvis : start ∈ vis
  tnotvis : target ∉ vis
  qsplit : ∃ q1 q2, q = q1 ++ q2 ∧ (∀ x ∈ q1, ShortestLen g start x D) ∧
    (∀ x ∈ q2, ShortestLen g start x (D + 1))
  visdist : ∀ w ∈ vis, ∃ k, k ≤ D + 1 ∧ ShortestLen g start w k
  procd : ∀ w ∈ vis, w ∉ q → ∀ n ∈ adjGetL g.adjacency_list w, n ∈ vis
  low : ∀ u k, ShortestLen g start u k → k ≤ D → u ∈ vis
  pstart : lookupP P start = some none
  pkeys : ∀ x, (lookupP P x).isSome = true ↔ x ∈ vis
  pnodup : (P.map Prod.fst).Nodup
  pchain : ∀ w pv, lookupP P w = some pv → w ≠ start →
    ∃ w2 k, pv = some w2 ∧ w ∈ adjGetL g.adjacency_list w2 ∧
      (lookupP P w2).isSome = true ∧ ShortestLen g start w2 k ∧
      ShortestLen g start w (k + 1)

/-- Every listed neighbor is itself a key: on such graphs the model's
defaulting `adjGetL` agrees with Python's raising `adjacency_list[vertex]`
everywhere the traversals look.  Holds for every graph built through the
mutation API. -/
def ClosedG (g : Graph V) : Prop :=
  ∀ p ∈ g.adjacency_list, ∀ n ∈ p.2, hasKey g.adjacency_list n = true

/-- The dict keys are pairwise distinct (always true of a Python dict). -/
def KeysNodup (g : Graph V) : Prop := (g.adjacency_list.map Prod.fst).Nodup

/-- No neighbor list contains a duplicate entry. -/
def NbrsNodup (g : Graph V) : Prop := ∀ p ∈ g.adjacency_list, p.2.Nodup

/-- Number of occurrences of `a` in a list (used to state the
exactly-once property of `get_edges`). -/
def countOcc {α : Type} [DecidableEq α] : List α → α → Nat
  | [], _ => 0
  | x :: xs, a => (if x = a then 1 else 0) + countOcc xs a

/-- The ordered pairs `(vertex, neighbor)` that the nested loops of
`get_edges` visit, in visiting order (proof device for the fold
refactoring). -/
def pairsOf : List (V × List V) → List (V × V)
  | [] => []
  | (v, ns) :: rest => ns.map (fun n => (v, n)) ++ pairsOf rest

/-- Symmetry of stored adjacency: `v` is listed under `u` iff `u` is listed
under `v` (the undirected-graph invariant of the spec). -/
def SymmG (g : Graph V) : Prop :=
  ∀ u v : V, v ∈ adjGetL g.adjacency_list u ↔ u ∈ adjGetL g.adjacency_list v

/-- One call of the public mutation API. -/
inductive GOp (V : Type) where
  | addV : V → GOp V
  | addE : V → V → GOp V
  | remE : V → V → GOp V
  | remV : V → GOp V

/-- Apply one mutation call. -/
def applyOp (g : Graph V) : GOp V → Graph V
  | .addV v => add_vertex g v
  | .addE u v => add_edge g u v
  | .remE u v => remove_edge g u v
  | .remV v => remove_vertex g v

/-- The graph produced from `Graph(directed)` by a sequence of mutation
calls: exactly the graphs a caller of the API can ever hold. -/
def buildGraph (directed : Bool) (ops : List (GOp V)) : Graph V :=
  ops.foldl applyOp (Graph.empty directed)

/-- The undirected example graph of the source's demo driver and of the
spec's Scenario 1, built by the exact call sequence
`add_edge('A','B'); add_edge('A','C'); add_edge('B','D'); add_edge('B','E');
add_edge('C','F'); add_edge('E','F')`. -/
def exampleGraph : Graph String :=
  buildGraph false [GOp.addE "A" "B", GOp.addE "A" "C", GOp.addE "B" "D",
    GOp.addE "B" "E", GOp.addE "C" "F", GOp.addE "E" "F"]

/-! Basic lemmas about the association-list model of the Python dict. -/

theorem hasKey_iff_mem {l : List (V × List V)} {v : V} :
    hasKey l v = true ↔ v ∈ l.map Prod.fst := by
  induction l with
  | nil => simp [hasKey]
  | cons p rest ih =>
    obtain ⟨k, ns⟩ := p
    by_cases h : k = v
    · simp [hasKey, h]
    · have h2 : ¬v = k := fun he => h he.symm
      simp [hasKey, h, ih, h2]

theorem hasKey_false_iff {l : List (V × List V)} {v : V} :
    hasKey l v = false ↔ v ∉ l.map Prod.fst := by
  rw [← hasKey_iff_mem]
  cases h : hasKey l v <;> simp [h]

theorem adjGetL_of_not_hasKey {l : List (V × List V)} {v : V}
    (h : hasKey l v = false) : adjGetL l v = [] := by
  induction l with
  | nil => rfl
  | cons p rest ih =>
    obtain ⟨k, ns⟩ := p
    simp only [hasKey, adjGetL] at *
    by_cases hk : k = v
    · simp [hk] at h
    · simpa [hk] using ih (by simpa [hk] using h)

theorem hasKey_of_mem_adjGetL {l : List (V × List V)} {v x : V}
    (h : x ∈ adjGetL l v) : hasKey l v = true := by
  cases hk : hasKey l v
  · rw [adjGetL_of_not_hasKey hk] at h
    simp at h
  · rfl

theorem hasKey_append {l1 l2 : List (V × List V)} {v : V} :
    hasKey (l1 ++ l2) v = (hasKey l1 v || hasKey l2 v) := by
  induction l1 with
  | nil => simp [hasKey]
  | cons p rest ih =>
    obtain ⟨k, ns⟩ := p
    by_cases h : k = v <;> simp [hasKey, h, ih]

theorem adjGetL_append {l1 l2 : List (V × List V)} {v : V} :
    adjGetL (l1 ++ l2) v = if hasKey l1 v then adjGetL l1 v else adjGetL l2 v := by
  induction l1 with
  | nil => simp [hasKey, adjGetL]
  | cons p rest ih =>
    obtain ⟨k, ns⟩ := p
    by_cases h : k = v <;> simp [hasKey, adjGetL, h, ih]

theorem updateAdj_map_fst {l : List (V × List V)} {v : V} {ns : List V} :
    (updateAdj l v ns).map Prod.fst = l.map Prod.fst := by
  induction l with
  | nil => rfl
  | cons p rest ih =>
    obtain ⟨k, ns0⟩ := p
    by_cases h : k = v <;> simp [updateAdj, h, ih]

theorem hasKey_updateAdj {l : List (V × List V)} {v w : V} {ns : List V} :
    hasKey (updateAdj l v ns) w = hasKey l w := by
  rw [Bool.eq_iff_iff, hasKey_iff_mem, hasKey_iff_mem, updateAdj_map_fst]

theorem adjGetL_updateAdj_self {l : List (V × List V)} {v : V} {ns : List V}
    (h : hasKey l v = true) : adjGetL (updateAdj l v ns) v = ns := by
  induction l with
  | nil => simp [hasKey] at h
  | cons p rest ih =>
    obtain ⟨k, ns0⟩ := p
    by_cases hk : k = v
    · simp [updateAdj, adjGetL, hk]
    · simp only [hasKey, if_neg hk] at h
      simp [updateAdj, adjGetL, hk, ih h]

theorem adjGetL_updateAdj_of_ne {l : List (V × List V)} {v w : V} {ns : List V}
    (h : w ≠ v) : adjGetL (updateAdj l v ns) w = adjGetL l w := by
  induction l with
  | nil => rfl
  | cons p rest ih =>
    obtain ⟨k, ns0⟩ := p
    by_cases hk : k = v
    · subst hk
      have hkw : ¬k = w := fun hh => h hh.symm
      simp [updateAdj, adjGetL, hkw]
    · by_cases hw : k = w
      · subst hw
        simp [updateAdj, adjGetL, hk]
      · simp [updateAdj, adjGetL, hk, hw, ih]

theorem mem_updateAdj {l : List (V × List V)} {v : V} {ns : List V} {p : V × List V}
    (h : p ∈ updateAdj l v ns) : p ∈ l ∨ p = (v, ns) := by
  induction l with
  | nil => simp [updateAdj] at h
  | cons q rest ih =>
    obtain ⟨k, ns0⟩ := q
    by_cases hk : k = v
    · subst hk
      rcases (by simpa [updateAdj] using h : p = (k, ns) ∨ p ∈ rest) with h1 | h1
      · exact Or.inr h1
      · exact Or.inl (List.mem_cons_of_mem _ h1)
    · rcases (by simpa [updateAdj, hk] using h : p = (k, ns0) ∨ p ∈ updateAdj rest v ns) with h1 | h1
      · exact Or.inl (by simp [h1])
      · rcases ih h1 with h2 | h2
        · exact Or.inl (List.mem_cons_of_mem _ h2)
        · exact Or.inr h2

theorem updateAdj_of_not_hasKey {l : List (V × List V)} {v : V} {ns : List V}
    (h : hasKey l v = false) : updateAdj l v ns = l := by
  induction l with
  | nil => rfl
  | cons p rest ih =>
    obtain ⟨k, ns0⟩ := p
    simp only [hasKey] at h
    by_cases hk : k = v
    · simp [hk] at h
    · simp [updateAdj, hk, ih (by simpa [hk] using h)]

theorem removeFirst_sublist (l : List V) (v : V) : (removeFirst l v).Sublist l := by
  induction l with
  | nil => simp [removeFirst]
  | cons x xs ih =>
    by_cases h : x = v
    · simpa [removeFirst, h] using List.sublist_cons_self x xs
    · simpa [removeFirst, h] using ih.cons₂ x

theorem removeFirst_of_not_mem {l : List V} {v : V} (h : v ∉ l) :
    removeFirst l v = l := by
  induction l with
  | nil => rfl
  | cons x xs ih =>
    simp only [List.mem_cons, not_or] at h
    have hx : ¬x = v := fun he => h.1 he.symm
    simp [removeFirst, hx, ih h.2]

theorem mem_removeFirst {l : List V} {v x : V} (h : x ∈ removeFirst l v) : x ∈ l :=
  (removeFirst_sublist l v).mem h

theorem nodup_removeFirst {l : List V} {v : V} (h : l.Nodup) :
    (removeFirst l v).Nodup := h.sublist (removeFirst_sublist l v)

theorem not_mem_removeFirst_self {l : List V} {v : V} (h : l.Nodup) :
    v ∉ removeFirst l v := by
  induction l with
  | nil => simp [removeFirst]
  | cons x xs ih =>
    by_cases hx : x = v
    · subst hx
      simpa [removeFirst] using (List.nodup_cons.mp h).1
    · simp only [removeFirst, if_neg hx, List.mem_cons, not_or]
      exact ⟨fun he => hx he.symm, ih (List.nodup_cons.mp h).2⟩

theorem mem_removeFirst_of_ne {l : List V} {v x : V} (hx : x ≠ v) :
    x ∈ removeFirst l v ↔ x ∈ l := by
  induction l with
  | nil => simp [removeFirst]
  | cons y ys ih =>
    by_cases hy : y = v
    · subst hy
      simp [removeFirst, fun he : x = y => hx he]
    · simp [removeFirst, hy, ih]

theorem removeKey_sublist (l : List (V × List V)) (v : V) :
    (removeKey l v).Sublist l := by
  induction l with
  | nil => simp [removeKey]
  | cons p rest ih =>
    obtain ⟨k, ns⟩ := p
    by_cases h : k = v
    · simpa [removeKey, h] using List.sublist_cons_self (k, ns) rest
    · simpa [removeKey, h] using ih.cons₂ (k, ns)

theorem mem_removeKey {l : List (V × List V)} {v : V} {p : V × List V}
    (h : p ∈ removeKey l v) : p ∈ l := (removeKey_sublist l v).mem h

theorem hasKey_removeKey_self {l : List (V × List V)} {v : V}
    (h : (l.map Prod.fst).Nodup) : hasKey (removeKey l v) v = false := by
  induction l with
  | nil => rfl
  | cons p rest ih =>
    obtain ⟨k, ns⟩ := p
    simp only [List.map_cons, List.nodup_cons] at h
    by_cases hk : k = v
    · subst hk
      rw [removeKey, if_pos rfl, hasKey_false_iff]
      exact h.1
    · simp only [removeKey, if_neg hk, hasKey, if_neg hk]
      exact ih h.2

theorem hasKey_removeKey_of_ne {l : List (V × List V)} {v w : V} (h : w ≠ v) :
    hasKey (removeKey l v) w = hasKey l w := by
  induction l with
  | nil => rfl
  | cons p rest ih =>
    obtain ⟨k, ns⟩ := p
    by_cases hk : k = v
    · subst hk
      have hkw : ¬k = w := fun he => h he.symm
      simp [removeKey, hasKey, hkw, ih]
    · by_cases hw : k = w
      · subst hw
        simp [removeKey, hasKey, hk]
      · simp [removeKey, hasKey, hk, hw, ih]

theorem adjGetL_removeKey_of_ne {l : List (V × List V)} {v w : V} (h : w ≠ v) :
    adjGetL (removeKey l v) w = adjGetL l w := by
  induction l with
  | nil => rfl
  | cons p rest ih =>
    obtain ⟨k, ns⟩ := p
    by_cases hk : k = v
    · subst hk
      have hkw : ¬k = w := fun he => h he.symm
      simp [removeKey, adjGetL, hkw, ih]
    · by_cases hw : k = w
      · subst hw
        simp [removeKey, adjGetL, hk]
      · simp [removeKey, adjGetL, hk, hw, ih]

theorem map_fst_map_snd {l : List (V × List V)} {f : V × List V → List V} :
    (l.map (fun p => (p.1, f p))).map Prod.fst = l.map Prod.fst := by
  induction l with
  | nil => rfl
  | cons p rest ih => simp [ih]

theorem adjGetL_mem_entries {l : List (V × List V)} {v : V}
    (h : hasKey l v = true) : (v, adjGetL l v) ∈ l := by
  induction l with
  | nil => simp [hasKey] at h
  | cons p rest ih =>
    obtain ⟨k, ns⟩ := p
    by_cases hk : k = v
    · subst hk
      simp [adjGetL]
    · simp only [hasKey, if_neg hk] at h
      simp only [adjGetL, if_neg hk]
      exact List.mem_cons_of_mem _ (ih h)

theorem nodup_adjGetL {g : Graph V} (hn : NbrsNodup g) (v : V) :
    (adjGetL g.adjacency_list v).Nodup := by
  cases hk : hasKey g.adjacency_list v
  · rw [adjGetL_of_not_hasKey hk]
    simp
  · exact hn _ (adjGetL_mem_entries hk)

/-! Characterization of the mutation operations. -/

theorem add_vertex_directed (g : Graph V) (v : V) :
    (add_vertex g v).directed = g.directed := by
  unfold add_vertex
  split <;> rfl

theorem add_edge_directed (g : Graph V) (u v : V) :
    (add_edge g u v).directed = g.directed := rfl

theorem remove_edge_directed (g : Graph V) (u v : V) :
    (remove_edge g u v).directed = g.directed := rfl

theorem remove_vertex_directed (g : Graph V) (v : V) :
    (remove_vertex g v).directed = g.directed := by
  unfold remove_vertex
  split <;> rfl

theorem adjGetL_add_vertex (g : Graph V) (v w : V) :
    adjGetL (add_vertex g v).adjacency_list w = adjGetL g.adjacency_list w := by
  unfold add_vertex
  split
  · rfl
  · next h =>
    simp only [adjGetL_append]
    split
    · rfl
    · next h2 =>
      have h2f : hasKey g.adjacency_list w = false := by
        cases hx : hasKey g.adjacency_list w
        · rfl
        · exact absurd hx h2
      rw [adjGetL_of_not_hasKey h2f]
      by_cases hw : v = w <;> simp [adjGetL, hw]

theorem hasKey_add_vertex (g : Graph V) (v w : V) :
    hasKey (add_vertex g v).adjacency_list w = true ↔
      hasKey g.adjacency_list w = true ∨ w = v := by
  unfold add_vertex
  split
  · next h =>
    constructor
    · exact fun h2 => Or.inl h2
    · rintro (h2 | rfl)
      · exact h2
      · exact h
  · simp only [hasKey_append]
    by_cases hw : v = w
    · subst hw
      simp [hasKey]
    · have hw2 : ¬w = v := fun h => hw h.symm
      simp [hasKey, hw, hw2]

theorem hasKey_add_vertex_self (g : Graph V) (v : V) :
    hasKey (add_vertex g v).adjacency_list v = true :=
  (hasKey_add_vertex g v v).mpr (Or.inr rfl)

theorem hasKey_appendNbr (al : List (V × List V)) (a b w : V) :
    hasKey (appendNbr al a b) w = hasKey al w := by
  unfold appendNbr
  split
  · rfl
  · exact hasKey_updateAdj

theorem adjGetL_appendNbr_of_ne {al : List (V × List V)} {a w : V} (b : V)
    (h : w ≠ a) : adjGetL (appendNbr al a b) w = adjGetL al w := by
  unfold appendNbr
  split
  · rfl
  · exact adjGetL_updateAdj_of_ne h

theorem adjGetL_appendNbr_self {al : List (V × List V)} {a : V} (b : V)
    (h : hasKey al a = true) :
    adjGetL (appendNbr al a b) a =
      (if b ∈ adjGetL al a then adjGetL al a else adjGetL al a ++ [b]) := by
  unfold appendNbr
  split
  · rfl
  · exact adjGetL_updateAdj_self h

theorem mem_adjGetL_appendNbr_self {al : List (V × List V)} {a : V} (b : V)
    (h : hasKey al a = true) : b ∈ adjGetL (appendNbr al a b) a := by
  rw [adjGetL_appendNbr_self b h]
  split
  · next hb => exact hb
  · simp

theorem mem_appendNbr {al : List (V × List V)} {a b : V} {p : V × List V}
    (h : p ∈ appendNbr al a b) : p ∈ al ∨ p = (a, adjGetL al a ++ [b]) := by
  unfold appendNbr at h
  split at h
  · exact Or.inl h
  · exact mem_updateAdj h

theorem hasKey_dropNbr (al : List (V × List V)) (a b w : V) :
    hasKey (dropNbr al a b) w = hasKey al w := by
  unfold dropNbr
  split
  · exact hasKey_updateAdj
  · rfl

theorem adjGetL_dropNbr_of_ne {al : List (V × List V)} {a w : V} (b : V)
    (h : w ≠ a) : adjGetL (dropNbr al a b) w = adjGetL al w := by
  unfold dropNbr
  split
  · exact adjGetL_updateAdj_of_ne h
  · rfl

theorem adjGetL_dropNbr_self (al : List (V × List V)) (a b : V) :
    adjGetL (dropNbr al a b) a = removeFirst (adjGetL al a) b := by
  unfold dropNbr
  split
  · next h => exact adjGetL_updateAdj_self h.1
  · next h =>
    rw [Classical.not_and_iff_or_not_not] at h
    rcases h with h | h
    · rw [adjGetL_of_not_hasKey (by simpa using h)]
      rfl
    · rw [removeFirst_of_not_mem h]

theorem mem_dropNbr {al : List (V × List V)} {a b : V} {p : V × List V}
    (h : p ∈ dropNbr al a b) : p ∈ al ∨ p = (a, removeFirst (adjGetL al a) b) := by
  unfold dropNbr at h
  split at h
  · exact mem_updateAdj h
  · exact Or.inl h

/-- The adjacency list of `add_edge`, spelled through its two steps. -/
theorem add_edge_adjacency (g : Graph V) (u v : V) :
    (add_edge g u v).adjacency_list =
      (if g.directed = false
       then appendNbr (appendNbr (add_vertex (add_vertex g u) v).adjacency_list u v) v u
       else appendNbr (add_vertex (add_vertex g u) v).adjacency_list u v) := rfl

/-- The adjacency list of `remove_edge`, spelled through its two steps. -/
theorem remove_edge_adjacency (g : Graph V) (u v : V) :
    (remove_edge g u v).adjacency_list =
      (if g.directed = false
       then dropNbr (dropNbr g.adjacency_list u v) v u
       else dropNbr g.adjacency_list u v) := rfl

theorem hasKey_add_edge (g : Graph V) (u v w : V) :
    hasKey (add_edge g u v).adjacency_list w = true ↔
      hasKey g.adjacency_list w = true ∨ w = u ∨ w = v := by
  have base : hasKey (add_vertex (add_vertex g u) v).adjacency_list w = true ↔
      hasKey g.adjacency_list w = true ∨ w = u ∨ w = v := by
    rw [hasKey_add_vertex, hasKey_add_vertex]
    tauto
  rw [show (add_edge g u v).adjacency_list = _ from add_edge_adjacency g u v]
  split
  · rw [hasKey_appendNbr, hasKey_appendNbr]
    exact base
  · rw [hasKey_appendNbr]
    exact base

theorem hasKey_remove_edge (g : Graph V) (u v w : V) :
    hasKey (remove_edge g u v).adjacency_list w = hasKey g.adjacency_list w := by
  rw [show (remove_edge g u v).adjacency_list = _ from remove_edge_adjacency g u v]
  split
  · rw [hasKey_dropNbr, hasKey_dropNbr]
  · rw [hasKey_dropNbr]

theorem appendNbr_map_fst (al : List (V × List V)) (a b : V) :
    (appendNbr al a b).map Prod.fst = al.map Prod.fst := by
  unfold appendNbr
  split
  · rfl
  · exact updateAdj_map_fst

theorem dropNbr_map_fst (al : List (V × List V)) (a b : V) :
    (dropNbr al a b).map Prod.fst = al.map Prod.fst := by
  unfold dropNbr
  split
  · exact updateAdj_map_fst
  · rfl

theorem mem_appendNbr_strong {al : List (V × List V)} {a b : V} {p : V × List V}
    (h : p ∈ appendNbr al a b) :
    p ∈ al ∨ (b ∉ adjGetL al a ∧ p = (a, adjGetL al a ++ [b])) := by
  unfold appendNbr at h
  split at h
  · exact Or.inl h
  · next hb =>
    rcases mem_updateAdj h with h1 | h1
    · exact Or.inl h1
    · exact Or.inr ⟨hb, h1⟩

theorem nodup_adjGetL_list {al : List (V × List V)}
    (hn : ∀ p ∈ al, p.2.Nodup) (v : V) : (adjGetL al v).Nodup := by
  cases hk : hasKey al v
  · rw [adjGetL_of_not_hasKey hk]
    simp
  · exact hn _ (adjGetL_mem_entries hk)

theorem closed_adjGetL {al : List (V × List V)}
    (hc : ∀ p ∈ al, ∀ n ∈ p.2, hasKey al n = true) {v n : V}
    (h : n ∈ adjGetL al v) : hasKey al n = true := by
  cases hk : hasKey al v
  · rw [adjGetL_of_not_hasKey hk] at h
    simp at h
  · exact hc _ (adjGetL_mem_entries hk) n h

theorem adjGetL_map_removeFirst (al : List (V × List V)) (x a : V) :
    adjGetL (al.map fun p => (p.1, removeFirst p.2 x)) a
      = removeFirst (adjGetL al a) x := by
  induction al with
  | nil => rfl
  | cons p rest ih =>
    obtain ⟨k, ns⟩ := p
    by_cases hk : k = a <;> simp [adjGetL, hk, ih]

theorem hasKey_map_snd {al : List (V × List V)} {f : V × List V → List V} {w : V} :
    hasKey (al.map fun p => (p.1, f p)) w = hasKey al w := by
  rw [Bool.eq_iff_iff, hasKey_iff_mem, hasKey_iff_mem, map_fst_map_snd]

/-! Membership characterizations of the mutations, used for the symmetry
invariant. -/

theorem mem_adjGetL_add_edge (g : Graph V) (u v a b : V) :
    b ∈ adjGetL (add_edge g u v).adjacency_list a ↔
      b ∈ adjGetL g.adjacency_list a ∨ (a = u ∧ b = v) ∨
        (g.directed = false ∧ a = v ∧ b = u) := by
  have hA : ∀ w, adjGetL (add_vertex (add_vertex g u) v).adjacency_list w
      = adjGetL g.adjacency_list w := fun w => by
    rw [adjGetL_add_vertex, adjGetL_add_vertex]
  have hku : hasKey (add_vertex (add_vertex g u) v).adjacency_list u = true :=
    (hasKey_add_vertex _ v u).mpr (Or.inl (hasKey_add_vertex_self g u))
  have hkv : hasKey (add_vertex (add_vertex g u) v).adjacency_list v = true :=
    hasKey_add_vertex_self _ v
  set al1 := (add_vertex (add_vertex g u) v).adjacency_list with hal1
  have step1 : ∀ x y, y ∈ adjGetL (appendNbr al1 u v) x ↔
      y ∈ adjGetL g.adjacency_list x ∨ (x = u ∧ y = v) := by
    intro x y
    by_cases hx : x = u
    · subst hx
      rw [adjGetL_appendNbr_self v hku, hA]
      split
      · next hv =>
        constructor
        · exact fun h => Or.inl h
        · rintro (h | ⟨-, rfl⟩)
          · exact h
          · exact hv
      · simp [or_comm]
    · rw [adjGetL_appendNbr_of_ne v hx, hA]
      simp [hx]
  rw [add_edge_adjacency]
  split
  · next hdir =>
    have hkv2 : hasKey (appendNbr al1 u v) v = true := by
      rw [hasKey_appendNbr]
      exact hkv
    by_cases ha : a = v
    · subst ha
      rw [adjGetL_appendNbr_self u hkv2]
      split
      · next hu =>
        have hu2 := (step1 a u).mp hu
        rw [step1]
        constructor
        · rintro (h | h)
          · exact Or.inl h
          · exact Or.inr (Or.inl h)
        · rintro (h | h | ⟨-, -, hb⟩)
          · exact Or.inl h
          · exact Or.inr h
          · rcases hu2 with h2 | h2
            · exact Or.inl (by rw [hb]; exact h2)
            · exact Or.inr ⟨h2.1, hb.trans h2.2⟩
      · simp only [List.mem_append, List.mem_singleton, step1, hdir]
        tauto
    · rw [adjGetL_appendNbr_of_ne u ha, step1]
      simp [ha]
  · next hdir =>
    rw [step1]
    have hdir2 : ¬g.directed = false := hdir
    simp [hdir2]

theorem mem_adjGetL_remove_edge (g : Graph V) (hn : NbrsNodup g) (u v a b : V) :
    b ∈ adjGetL (remove_edge g u v).adjacency_list a ↔
      b ∈ adjGetL g.adjacency_list a ∧ ¬(a = u ∧ b = v) ∧
        ¬(g.directed = false ∧ a = v ∧ b = u) := by
  have hnod : ∀ x, (adjGetL g.adjacency_list x).Nodup := nodup_adjGetL_list hn
  have step1 : ∀ x y, y ∈ adjGetL (dropNbr g.adjacency_list u v) x ↔
      y ∈ adjGetL g.adjacency_list x ∧ ¬(x = u ∧ y = v) := by
    intro x y
    by_cases hx : x = u
    · subst hx
      rw [adjGetL_dropNbr_self]
      by_cases hy : y = v
      · subst hy
        simp [not_mem_removeFirst_self (hnod x)]
      · rw [mem_removeFirst_of_ne hy]
        simp [hy]
    · rw [adjGetL_dropNbr_of_ne v hx]
      simp [hx]
  have hnod1 : ∀ x, (adjGetL (dropNbr g.adjacency_list u v) x).Nodup := by
    intro x
    by_cases hx : x = u
    · subst hx
      rw [adjGetL_dropNbr_self]
      exact nodup_removeFirst (hnod x)
    · rw [adjGetL_dropNbr_of_ne v hx]
      exact hnod x
  rw [remove_edge_adjacency]
  split
  · next hdir =>
    by_cases ha : a = v
    · subst ha
      rw [adjGetL_dropNbr_self]
      by_cases hb : b = u
      · subst hb
        simp [not_mem_removeFirst_self (hnod1 a), step1, hdir]
      · rw [mem_removeFirst_of_ne hb, step1]
        simp [hb]
    · rw [adjGetL_dropNbr_of_ne u ha, step1]
      simp [ha]
  · next hdir =>
    rw [step1]
    have hdir2 : ¬g.directed = false := hdir
    simp [hdir2]

theorem hasKey_remove_vertex_self (g : Graph V) (v : V) (hk : KeysNodup g) :
    hasKey (remove_vertex g v).adjacency_list v = false := by
  unfold remove_vertex
  split
  · exact hasKey_removeKey_self (by rw [map_fst_map_snd]; exact hk)
  · next h => simpa using h

theorem hasKey_remove_vertex_of_ne (g : Graph V) {v w : V} (h : w ≠ v) :
    hasKey (remove_vertex g v).adjacency_list w = hasKey g.adjacency_list w := by
  unfold remove_vertex
  split
  · rw [hasKey_removeKey_of_ne h, hasKey_map_snd]
  · rfl

theorem mem_adjGetL_remove_vertex (g : Graph V) (hk : KeysNodup g)
    (hn : NbrsNodup g) (hc : ClosedG g) (v a b : V) :
    b ∈ adjGetL (remove_vertex g v).adjacency_list a ↔
      b ∈ adjGetL g.adjacency_list a ∧ a ≠ v ∧ b ≠ v := by
  unfold remove_vertex
  split
  · next hpres =>
    by_cases ha : a = v
    · subst ha
      rw [adjGetL_of_not_hasKey
        (hasKey_removeKey_self (by rw [map_fst_map_snd]; exact hk))]
      simp
    · rw [adjGetL_removeKey_of_ne ha, adjGetL_map_removeFirst]
      by_cases hb : b = v
      · subst hb
        simp [not_mem_removeFirst_self (nodup_adjGetL_list hn a), ha]
      · rw [mem_removeFirst_of_ne hb]
        simp [ha, hb]
  · next habs =>
    have habs2 : hasKey g.adjacency_list v = false := by simpa using habs
    constructor
    · intro h
      refine ⟨h, ?_, ?_⟩
      · rintro rfl
        rw [adjGetL_of_not_hasKey habs2] at h
        simp at h
      · rintro rfl
        rw [closed_adjGetL hc h] at habs2
        simp at habs2
    · exact fun h => h.1

/-! Preservation of the data-structure invariants by the mutation API. -/

theorem keysNodup_add_vertex {g : Graph V} (hk : KeysNodup g) (v : V) :
    KeysNodup (add_vertex g v) := by
  unfold KeysNodup add_vertex at *
  split
  · exact hk
  · next h =>
    have hv : v ∉ g.adjacency_list.map Prod.fst := by
      rw [← hasKey_false_iff]
      simpa using h
    simp only [List.map_append, List.map_cons, List.map_nil]
    rw [List.nodup_append]
    exact ⟨hk, List.nodup_singleton v, by rw [List.disjoint_singleton]; exact hv⟩

theorem nbrsNodup_add_vertex {g : Graph V} (hn : NbrsNodup g) (v : V) :
    NbrsNodup (add_vertex g v) := by
  unfold NbrsNodup add_vertex at *
  split
  · exact hn
  · intro p hp
    rcases List.mem_append.mp hp with h | h
    · exact hn p h
    · simp only [List.mem_singleton] at h
      subst h
      simp

theorem closed_add_vertex {g : Graph V} (hc : ClosedG g) (v : V) :
    ClosedG (add_vertex g v) := by
  intro p hp n hn2
  have : (add_vertex g v).adjacency_list = g.adjacency_list ∨
      (add_vertex g v).adjacency_list = g.adjacency_list ++ [(v, [])] := by
    unfold add_vertex
    split
    · exact Or.inl rfl
    · exact Or.inr rfl
  have hkey : ∀ w, hasKey g.adjacency_list w = true →
      hasKey (add_vertex g v).adjacency_list w = true := fun w hw =>
    (hasKey_add_vertex g v w).mpr (Or.inl hw)
  rcases this with he | he
  · rw [he] at hp
    exact hkey n (hc p hp n hn2)
  · rw [he] at hp
    rcases List.mem_append.mp hp with h | h
    · exact hkey n (hc p h n hn2)
    · simp only [List.mem_singleton] at h
      subst h
      simp at hn2

theorem keysNodup_add_edge {g : Graph V} (hk : KeysNodup g) (u v : V) :
    KeysNodup (add_edge g u v) := by
  have h2 : KeysNodup (add_vertex (add_vertex g u) v) :=
    keysNodup_add_vertex (keysNodup_add_vertex hk u) v
  unfold KeysNodup
  rw [add_edge_adjacency]
  split
  · rw [appendNbr_map_fst, appendNbr_map_fst]
    exact h2
  · rw [appendNbr_map_fst]
    exact h2

theorem nbrsNodup_appendNbr {al : List (V × List V)}
    (hn : ∀ p ∈ al, p.2.Nodup) (a b : V) :
    ∀ p ∈ appendNbr al a b, p.2.Nodup := by
  intro p hp
  rcases mem_appendNbr_strong hp with h | ⟨hb, h⟩
  · exact hn p h
  · subst h
    simp only
    rw [List.nodup_append]
    exact ⟨nodup_adjGetL_list hn a, List.nodup_singleton b,
      by rw [List.disjoint_singleton]; exact hb⟩

theorem nbrsNodup_add_edge {g : Graph V} (hn : NbrsNodup g) (u v : V) :
    NbrsNodup (add_edge g u v) := by
  have h2 : NbrsNodup (add_vertex (add_vertex g u) v) :=
    nbrsNodup_add_vertex (nbrsNodup_add_vertex hn u) v
  unfold NbrsNodup
  rw [add_edge_adjacency]
  split
  · exact nbrsNodup_appendNbr (nbrsNodup_appendNbr h2 u v) v u
  · exact nbrsNodup_appendNbr h2 u v

theorem closed_appendNbr {al : List (V × List V)}
    (hc : ∀ p ∈ al, ∀ n ∈ p.2, hasKey al n = true) {a b : V}
    (hb : hasKey al b = true) :
    ∀ p ∈ appendNbr al a b, ∀ n ∈ p.2, hasKey (appendNbr al a b) n = true := by
  intro p hp n hn2
  rw [hasKey_appendNbr]
  rcases mem_appendNbr_strong hp with h | ⟨-, h⟩
  · exact hc p h n hn2
  · subst h
    simp only at hn2
    rcases List.mem_append.mp hn2 with h2 | h2
    · exact closed_adjGetL hc h2
    · simp only [List.mem_singleton] at h2
      subst h2
      exact hb

theorem closed_add_edge {g : Graph V} (hc : ClosedG g) (u v : V) :
    ClosedG (add_edge g u v) := by
  have h2 : ClosedG (add_vertex (add_vertex g u) v) :=
    closed_add_vertex (closed_add_vertex hc u) v
  have hku : hasKey (add_vertex (add_vertex g u) v).adjacency_list u = true :=
    (hasKey_add_vertex _ v u).mpr (Or.inl (hasKey_add_vertex_self g u))
  have hkv : hasKey (add_vertex (add_vertex g u) v).adjacency_list v = true :=
    hasKey_add_vertex_self _ v
  unfold ClosedG
  rw [add_edge_adjacency]
  split
  · refine closed_appendNbr ?_ ?_
    · exact closed_appendNbr h2 hkv
    · rw [hasKey_appendNbr]
      exact hku
  · exact closed_appendNbr h2 hkv

theorem keysNodup_remove_edge {g : Graph V} (hk : KeysNodup g) (u v : V) :
    KeysNodup (remove_edge g u v) := by
  unfold KeysNodup
  rw [remove_edge_adjacency]
  split
  · rw [dropNbr_map_fst, dropNbr_map_fst]
    exact hk
  · rw [dropNbr_map_fst]
    exact hk

theorem nbrsNodup_dropNbr {al : List (V × List V)}
    (hn : ∀ p ∈ al, p.2.Nodup) (a b : V) :
    ∀ p ∈ dropNbr al a b, p.2.Nodup := by
  intro p hp
  rcases mem_dropNbr hp with h | h
  · exact hn p h
  · subst h
    exact nodup_removeFirst (nodup_adjGetL_list hn a)

theorem nbrsNodup_remove_edge {g : Graph V} (hn : NbrsNodup g) (u v : V) :
    NbrsNodup (remove_edge g u v) := by
  unfold NbrsNodup
  rw [remove_edge_adjacency]
  split
  · exact nbrsNodup_dropNbr (nbrsNodup_dropNbr hn u v) v u
  · exact nbrsNodup_dropNbr hn u v

theorem closed_dropNbr {al : List (V × List V)}
    (hc : ∀ p ∈ al, ∀ n ∈ p.2, hasKey al n = true) (a b : V) :
    ∀ p ∈ dropNbr al a b, ∀ n ∈ p.2, hasKey (dropNbr al a b) n = true := by
  intro p hp n hn2
  rw [hasKey_dropNbr]
  rcases mem_dropNbr hp with h | h
  · exact hc p h n hn2
  · subst h
    exact closed_adjGetL hc (mem_removeFirst hn2)

theorem closed_remove_edge {g : Graph V} (hc : ClosedG g) (u v : V) :
    ClosedG (remove_edge g u v) := by
  unfold ClosedG
  rw [remove_edge_adjacency]
  split
  · exact closed_dropNbr (closed_dropNbr hc u v) v u
  · exact closed_dropNbr hc u v

theorem keysNodup_remove_vertex {g : Graph V} (hk : KeysNodup g) (v : V) :
    KeysNodup (remove_vertex g v) := by
  unfold KeysNodup remove_vertex at *
  split
  · refine hk.sublist ?_
    have h1 := removeKey_sublist (g.adjacency_list.map fun p => (p.1, removeFirst p.2 v)) v
    have h2 := h1.map Prod.fst
    rw [map_fst_map_snd] at h2
    exact h2
  · exact hk

theorem nbrsNodup_remove_vertex {g : Graph V} (hn : NbrsNodup g) (v : V) :
    NbrsNodup (remove_vertex g v) := by
  unfold NbrsNodup remove_vertex at *
  split
  · intro p hp
    rcases List.mem_map.mp (mem_removeKey hp) with ⟨q, hq, he⟩
    subst he
    exact nodup_removeFirst (hn q hq)
  · exact hn

theorem closed_remove_vertex {g : Graph V} (hk : KeysNodup g) (hn : NbrsNodup g)
    (hc : ClosedG g) (v : V) : ClosedG (remove_vertex g v) := by
  intro p hp n hn2
  have hset := hp
  unfold remove_vertex at hset
  split at hset
  · next hpres =>
    rcases List.mem_map.mp (mem_removeKey hset) with ⟨q, hq, he⟩
    subst he
    simp only at hn2
    have hnmem : n ∈ q.2 := mem_removeFirst hn2
    have hne : n ≠ v := by
      rintro rfl
      exact not_mem_removeFirst_self (hn q hq) hn2
    rw [show (remove_vertex g v).adjacency_list =
      removeKey (g.adjacency_list.map fun p => (p.1, removeFirst p.2 v)) v by
        unfold remove_vertex; rw [if_pos hpres]]
    rw [hasKey_removeKey_of_ne hne, hasKey_map_snd]
    exact hc q hq n hnmem
  · next habs =>
    have he : (remove_vertex g v).adjacency_list = g.adjacency_list := by
      unfold remove_vertex
      rw [if_neg habs]
    rw [he] at hp ⊢
    exact hc p hp n hn2

/-! Preservation of the symmetry invariant (undirected graphs). -/

theorem symm_add_vertex {g : Graph V} (hs : SymmG g) (v : V) :
    SymmG (add_vertex g v) := by
  intro a b
  rw [adjGetL_add_vertex, adjGetL_add_vertex]
  exact hs a b

theorem symm_add_edge {g : Graph V} (hd : g.directed = false) (hs : SymmG g)
    (u v : V) : SymmG (add_edge g u v) := by
  intro a b
  rw [mem_adjGetL_add_edge, mem_adjGetL_add_edge, hd]
  have := hs a b
  tauto

theorem symm_remove_edge {g : Graph V} (hd : g.directed = false)
    (hn : NbrsNodup g) (hs : SymmG g) (u v : V) : SymmG (remove_edge g u v) := by
  intro a b
  rw [mem_adjGetL_remove_edge g hn, mem_adjGetL_remove_edge g hn, hd]
  have := hs a b
  tauto

theorem symm_remove_vertex {g : Graph V} (hk : KeysNodup g) (hn : NbrsNodup g)
    (hc : ClosedG g) (hs : SymmG g) (v : V) : SymmG (remove_vertex g v) := by
  intro a b
  rw [mem_adjGetL_remove_vertex g hk hn hc, mem_adjGetL_remove_vertex g hk hn hc]
  have := hs a b
  tauto

/-! All invariants hold of every graph built through the mutation API. -/

theorem applyOp_directed (g : Graph V) (op : GOp V) :
    (applyOp g op).directed = g.directed := by
  cases op with
  | addV v => exact add_vertex_directed g v
  | addE u v => exact add_edge_directed g u v
  | remE u v => exact remove_edge_directed g u v
  | remV v => exact remove_vertex_directed g v

theorem inv_applyOp {g : Graph V} (h : KeysNodup g ∧ NbrsNodup g ∧ ClosedG g)
    (op : GOp V) : KeysNodup (applyOp g op) ∧ NbrsNodup (applyOp g op) ∧
      ClosedG (applyOp g op) := by
  obtain ⟨hk, hn, hc⟩ := h
  cases op with
  | addV v => exact ⟨keysNodup_add_vertex hk v, nbrsNodup_add_vertex hn v,
      closed_add_vertex hc v⟩
  | addE u v => exact ⟨keysNodup_add_edge hk u v, nbrsNodup_add_edge hn u v,
      closed_add_edge hc u v⟩
  | remE u v => exact ⟨keysNodup_remove_edge hk u v, nbrsNodup_remove_edge hn u v,
      closed_remove_edge hc u v⟩
  | remV v => exact ⟨keysNodup_remove_vertex hk v, nbrsNodup_remove_vertex hn v,
      closed_remove_vertex hk hn hc v⟩

theorem symm_applyOp {g : Graph V} (hd : g.directed = false)
    (h : KeysNodup g ∧ NbrsNodup g ∧ ClosedG g) (hs : SymmG g) (op : GOp V) :
    SymmG (applyOp g op) := by
  obtain ⟨hk, hn, hc⟩ := h
  cases op with
  | addV v => exact symm_add_vertex hs v
  | addE u v => exact symm_add_edge hd hs u v
  | remE u v => exact symm_remove_edge hd hn hs u v
  | remV v => exact symm_remove_vertex hk hn hc hs v

theorem foldl_applyOp_inv {g : Graph V}
    (h : KeysNodup g ∧ NbrsNodup g ∧ ClosedG g) (ops : List (GOp V)) :
    KeysNodup (ops.foldl applyOp g) ∧ NbrsNodup (ops.foldl applyOp g) ∧
      ClosedG (ops.foldl applyOp g) := by
  induction ops generalizing g with
  | nil => exact h
  | cons op rest ih => exact ih (inv_applyOp h op)

theorem buildGraph_inv (d : Bool) (ops : List (GOp V)) :
    KeysNodup (buildGraph d ops) ∧ NbrsNodup (buildGraph d ops) ∧
      ClosedG (buildGraph d ops) := by
  refine foldl_applyOp_inv ?_ ops
  refine ⟨?_, ?_, ?_⟩
  · simp [KeysNodup, Graph.empty]
  · intro p hp
    simp [Graph.empty] at hp
  · intro p hp
    simp [Graph.empty] at hp

theorem foldl_applyOp_directed (g : Graph V) (ops : List (GOp V)) :
    (ops.foldl applyOp g).directed = g.directed := by
  induction ops generalizing g with
  | nil => rfl
  | cons op rest ih => rw [List.foldl_cons, ih, applyOp_directed]

theorem buildGraph_directed (d : Bool) (ops : List (GOp V)) :
    (buildGraph d ops).directed = d :=
  foldl_applyOp_directed (Graph.empty d) ops

theorem foldl_applyOp_symm {g : Graph V} (hd : g.directed = false)
    (h : KeysNodup g ∧ NbrsNodup g ∧ ClosedG g) (hs : SymmG g)
    (ops : List (GOp V)) : SymmG (ops.foldl applyOp g) := by
  induction ops generalizing g with
  | nil => exact hs
  | cons op rest ih =>
    exact ih ((applyOp_directed g op).trans hd) (inv_applyOp h op)
      (symm_applyOp hd h hs op)

theorem buildGraph_symm (ops : List (GOp V)) : SymmG (buildGraph false ops) := by
  refine foldl_applyOp_symm rfl ⟨?_, ?_, ?_⟩ ?_ ops
  · simp [KeysNodup, Graph.empty]
  · intro p hp
    simp [Graph.empty] at hp
  · intro p hp
    simp [Graph.empty] at hp
  · intro a b
    simp [Graph.empty, adjGetL]

/-! Helper lemmas for the claim theorems. -/

theorem Graph.ext' {g1 g2 : Graph V} (h1 : g1.directed = g2.directed)
    (h2 : g1.adjacency_list = g2.adjacency_list) : g1 = g2 := by
  cases g1
  cases g2
  simp only at h1 h2
  rw [h1, h2]

theorem has_edge_iff_mem {g : Graph V} {a b : V} :
    has_edge g a b = true ↔ b ∈ adjGetL g.adjacency_list a := by
  unfold has_edge
  constructor
  · intro h
    rw [Bool.and_eq_true] at h
    exact of_decide_eq_true h.2
  · intro h
    rw [Bool.and_eq_true]
    exact ⟨hasKey_of_mem_adjGetL h, decide_eq_true h⟩

theorem add_vertex_of_hasKey {g : Graph V} {v : V}
    (h : hasKey g.adjacency_list v = true) : add_vertex g v = g := by
  unfold add_vertex
  rw [if_pos h]

theorem appendNbr_of_mem {al : List (V × List V)} {a b : V}
    (h : b ∈ adjGetL al a) : appendNbr al a b = al := by
  unfold appendNbr
  rw [if_pos h]

/-- Claim C4: for every undirected graph reachable from the empty graph
through the mutation API and all vertices `u, v`: `has_edge(u, v) ==
has_edge(v, u)`, equivalently `v` appears in `adjacency[u]` iff `u` appears
in `adjacency[v]`. -/
theorem undirected_symmetry_invariant (ops : List (GOp V)) (u v : V) :
    has_edge (buildGraph false ops) u v = has_edge (buildGraph false ops) v u ∧
    (v ∈ adjGetL (buildGraph false ops).adjacency_list u ↔
      u ∈ adjGetL (buildGraph false ops).adjacency_list v) := by
  have hsym := buildGraph_symm ops u v
  refine ⟨?_, hsym⟩
  rw [Bool.eq_iff_iff, has_edge_iff_mem, has_edge_iff_mem]
  exact hsym

/-- Claim C5: no graph reachable through the mutation API has a duplicate
entry in any neighbor sequence; `add_edge` is idempotent (a second identical
call leaves the graph unchanged, hence every `get_neighbors` sequence
unchanged); and on an undirected graph with duplicate-free neighbor lists,
`add_edge(u, u)` leaves exactly one copy of the self-loop `u` in
`adjacency[u]`. -/
theorem add_edge_nodup_idem :
    (∀ (d : Bool) (ops : List (GOp V)), NbrsNodup (buildGraph d ops)) ∧
    (∀ (g : Graph V) (u v : V), add_edge (add_edge g u v) u v = add_edge g u v) ∧
    (∀ (g : Graph V) (u : V), g.directed = false → NbrsNodup g →
      (adjGetL (add_edge g u u).adjacency_list u).count u = 1) := by
  refine ⟨fun d ops => (buildGraph_inv d ops).2.1, ?_, ?_⟩
  · intro g u v
    set g2 := add_edge g u v with hg2
    have hd2 : g2.directed = g.directed := add_edge_directed g u v
    have hku : hasKey g2.adjacency_list u = true :=
      (hasKey_add_edge g u v u).mpr (Or.inr (Or.inl rfl))
    have hkv : hasKey g2.adjacency_list v = true :=
      (hasKey_add_edge g u v v).mpr (Or.inr (Or.inr rfl))
    have hmem1 : v ∈ adjGetL g2.adjacency_list u :=
      (mem_adjGetL_add_edge g u v u v).mpr (Or.inr (Or.inl ⟨rfl, rfl⟩))
    have hav : (add_vertex (add_vertex g2 u) v).adjacency_list = g2.adjacency_list := by
      rw [add_vertex_of_hasKey hku, add_vertex_of_hasKey hkv]
    refine Graph.ext' (by rw [add_edge_directed, hd2]) ?_
    rw [add_edge_adjacency, hav, appendNbr_of_mem hmem1]
    split
    · next hd =>
      have hmem2 : u ∈ adjGetL g2.adjacency_list v :=
        (mem_adjGetL_add_edge g u v v u).mpr
          (Or.inr (Or.inr ⟨by rw [← hd2]; exact hd, rfl, rfl⟩))
      rw [appendNbr_of_mem hmem2]
    · rfl
  · intro g u hd hn
    have hku : hasKey (add_vertex (add_vertex g u) u).adjacency_list u = true :=
      hasKey_add_vertex_self _ u
    have hA : adjGetL (add_vertex (add_vertex g u) u).adjacency_list u
        = adjGetL g.adjacency_list u := by
      rw [adjGetL_add_vertex, adjGetL_add_vertex]
    have hfst : adjGetL (appendNbr (add_vertex (add_vertex g u) u).adjacency_list u u) u =
        (if u ∈ adjGetL g.adjacency_list u then adjGetL g.adjacency_list u
         else adjGetL g.adjacency_list u ++ [u]) := by
      rw [adjGetL_appendNbr_self u hku, hA]
    have hmem : u ∈ adjGetL (appendNbr (add_vertex (add_vertex g u) u).adjacency_list u u) u := by
      rw [hfst]
      split
      · next h => exact h
      · simp
    rw [add_edge_adjacency, if_pos hd, appendNbr_of_mem hmem, hfst]
    split
    · next h =>
      exact List.count_eq_one_of_mem (nodup_adjGetL_list hn u) h
    · next h =>
      rw [List.count_append]
      rw [List.count_eq_zero_of_not_mem h]
      simp

/-- Claim C5 witness: the self-loop part applied on the empty undirected
graph, whose hypotheses hold by computation. -/
theorem add_edge_nodup_idem_witness :
    (Graph.empty false : Graph String).directed = false ∧
    NbrsNodup (Graph.empty false : Graph String) ∧
    (adjGetL (add_edge (Graph.empty false : Graph String) "X" "X").adjacency_list "X").count "X" = 1 :=
  ⟨rfl, by unfold NbrsNodup; decide,
    add_edge_nodup_idem.2.2 (Graph.empty false) "X" rfl (by unfold NbrsNodup; decide)⟩

/-- Claim C6: on any graph satisfying the dict and neighbor-list invariants
(as every API-built graph does), `remove_vertex(v)` leaves `has_vertex(v)`
false and purges `v` from every remaining neighbor sequence, and is a no-op
when `v` was not present. -/
theorem remove_vertex_cascade (g : Graph V) (v : V) (hk : KeysNodup g)
    (hn : NbrsNodup g) (hc : ClosedG g) :
    has_vertex (remove_vertex g v) v = false ∧
    (∀ w, v ∉ adjGetL (remove_vertex g v).adjacency_list w) ∧
    (has_vertex g v = false → remove_vertex g v = g) := by
  refine ⟨hasKey_remove_vertex_self g v hk, ?_, ?_⟩
  · intro w hmem
    have := (mem_adjGetL_remove_vertex g hk hn hc v w v).mp hmem
    exact this.2.2 rfl
  · intro habs
    unfold remove_vertex
    rw [if_neg (by rw [show has_vertex g v = hasKey g.adjacency_list v from rfl] at habs; simp [habs])]

/-- Claim C6 witness: the hypotheses hold and the conclusion applies on the
demo graph with vertex `B` removed. -/
theorem remove_vertex_cascade_witness :
    (KeysNodup exampleGraph ∧ NbrsNodup exampleGraph ∧ ClosedG exampleGraph) ∧
    (has_vertex (remove_vertex exampleGraph "B") "B" = false ∧
      (∀ w, "B" ∉ adjGetL (remove_vertex exampleGraph "B").adjacency_list w) ∧
      (has_vertex exampleGraph "B" = false → remove_vertex exampleGraph "B" = exampleGraph)) :=
  ⟨⟨by unfold KeysNodup; decide, by unfold NbrsNodup; decide, by unfold ClosedG; decide⟩,
    remove_vertex_cascade exampleGraph "B" (by unfold KeysNodup; decide)
      (by unfold NbrsNodup; decide) (by unfold ClosedG; decide)⟩

/-- Claim C8: a missing start vertex makes `bfs`, `dfs` and `dfs_recursive`
return the empty sequence; a missing endpoint makes `bfs_path` return `None`;
and `bfs_path(start, start)` on a present vertex returns `[start]`. -/
theorem missing_vertex_contract (g : Graph V) (start target : V) (t : Option V) :
    (has_vertex g start = false →
      bfs g start t = [] ∧ dfs g start t = [] ∧ dfs_recursive g start t = []) ∧
    ((has_vertex g start = false ∨ has_vertex g target = false) →
      bfs_path g start target = none) ∧
    (has_vertex g start = true → bfs_path g start start = some [start]) := by
  refine ⟨?_, ?_, ?_⟩
  · intro h
    have h2 : ¬hasKey g.adjacency_list start = true := by
      rw [show has_vertex g start = hasKey g.adjacency_list start from rfl] at h
      simp [h]
    exact ⟨by unfold bfs; rw [if_neg h2], by unfold dfs; rw [if_neg h2],
      by unfold dfs_recursive; rw [if_neg h2]⟩
  · intro h
    have h2 : hasKey g.adjacency_list start = false ∨ hasKey g.adjacency_list target = false := h
    unfold bfs_path
    rw [if_pos h2]
  · intro h
    have h2 : ¬(hasKey g.adjacency_list start = false ∨ hasKey g.adjacency_list start = false) := by
      rw [show has_vertex g start = hasKey g.adjacency_list start from rfl] at h
      simp [h]
    unfold bfs_path
    rw [if_neg h2, if_pos rfl]

/-- Claim C8 witness: applied on the demo graph with the absent vertex `Z`
and the present vertex `A`. -/
theorem missing_vertex_contract_witness :
    (has_vertex exampleGraph "Z" = false ∧
      bfs exampleGraph "Z" none = [] ∧ dfs exampleGraph "Z" none = [] ∧
      dfs_recursive exampleGraph "Z" none = []) ∧
    (bfs_path exampleGraph "A" "Z" = none) ∧
    (has_vertex exampleGraph "A" = true ∧ bfs_path exampleGraph "A" "A" = some ["A"]) :=
  ⟨⟨by decide, (missing_vertex_contract exampleGraph "Z" "Z" none).1 (by decide)⟩,
    (missing_vertex_contract exampleGraph "A" "Z" none).2.1 (Or.inr (by decide)),
    ⟨by decide, (missing_vertex_contract exampleGraph "A" "A" none).2.2 (by decide)⟩⟩

/-- Claim C9: on the undirected graph built by the demo's exact `add_edge`
sequence, `bfs('A')` returns `['A','B','C','D','E','F']` and
`bfs_path('A','F')` returns `['A','C','F']` (insertion-order tie-break
through `C`). -/
theorem scenario1_bfs_and_path :
    bfs exampleGraph "A" none = ["A", "B", "C", "D", "E", "F"] ∧
    bfs_path exampleGraph "A" "F" = some ["A", "C", "F"] := by
  constructor
  · decide
  · decide

/-! Lemmas about `countOcc` and the `get_edges` fold. -/

theorem countOcc_append {α : Type} [DecidableEq α] (l1 l2 : List α) (a : α) :
    countOcc (l1 ++ l2) a = countOcc l1 a + countOcc l2 a := by
  induction l1 with
  | nil => simp [countOcc]
  | cons x xs ih => simp [countOcc, ih]; omega

theorem countOcc_pos_iff {α : Type} [DecidableEq α] {l : List α} {a : α} :
    0 < countOcc l a ↔ a ∈ l := by
  induction l with
  | nil => simp [countOcc]
  | cons x xs ih =>
    by_cases hx : x = a
    · subst hx
      simp [countOcc]
    · have hx2 : ¬a = x := fun h => hx h.symm
      simp [countOcc, hx, hx2, ih]

theorem countOcc_eq_zero {α : Type} [DecidableEq α] {l : List α} {a : α}
    (h : a ∉ l) : countOcc l a = 0 := by
  by_contra hne
  exact h (countOcc_pos_iff.mp (Nat.pos_of_ne_zero hne))

theorem countOcc_ne {α : Type} [DecidableEq α] (l : List α) {a b : α}
    (h : b ≠ a) : countOcc (l ++ [b]) a = countOcc l a := by
  rw [countOcc_append]
  simp [countOcc, h]

theorem countOcc_self_append {α : Type} [DecidableEq α] (l : List α) (a : α) :
    countOcc (l ++ [a]) a = countOcc l a + 1 := by
  rw [countOcc_append]
  simp [countOcc]

theorem innerEdges_eq_foldl (d : Bool) (v : V) (ns : List V) (acc : List (V × V)) :
    innerEdges d v ns acc = (ns.map (fun n => (v, n))).foldl (edgeStep d) acc := by
  induction ns generalizing acc with
  | nil => rfl
  | cons n rest ih => simp [innerEdges, ih]

theorem outerEdges_eq_foldl (d : Bool) (l : List (V × List V)) (acc : List (V × V)) :
    outerEdges d l acc = (pairsOf l).foldl (edgeStep d) acc := by
  induction l generalizing acc with
  | nil => rfl
  | cons p rest ih =>
    obtain ⟨v, ns⟩ := p
    rw [show pairsOf ((v, ns) :: rest) = ns.map (fun n => (v, n)) ++ pairsOf rest from rfl,
      List.foldl_append, show outerEdges d ((v, ns) :: rest) acc
        = outerEdges d rest (innerEdges d v ns acc) from rfl,
      ih, innerEdges_eq_foldl]

theorem get_edges_eq_foldl (g : Graph V) :
    get_edges g = (pairsOf g.adjacency_list).foldl (edgeStep g.directed) [] :=
  outerEdges_eq_foldl g.directed g.adjacency_list []

theorem mem_pairsOf {l : List (V × List V)} {a b : V} :
    (a, b) ∈ pairsOf l ↔ ∃ ns, (a, ns) ∈ l ∧ b ∈ ns := by
  induction l with
  | nil => simp [pairsOf]
  | cons p rest ih =>
    obtain ⟨v, ns⟩ := p
    constructor
    · intro h
      rcases List.mem_append.mp h with h1 | h1
      · rcases List.mem_map.mp h1 with ⟨n, hn, he⟩
        rw [Prod.mk.injEq] at he
        exact ⟨ns, by simp [← he.1], he.2 ▸ hn⟩
      · rcases ih.mp h1 with ⟨ns', h2, h3⟩
        exact ⟨ns', List.mem_cons_of_mem _ h2, h3⟩
    · rintro ⟨ns', h2, h3⟩
      rcases List.mem_cons.mp h2 with h4 | h4
      · rw [Prod.mk.injEq] at h4
        refine List.mem_append.mpr (Or.inl (List.mem_map.mpr ⟨b, h4.2 ▸ h3, by rw [h4.1]⟩))
      · exact List.mem_append.mpr (Or.inr (ih.mpr ⟨ns', h4, h3⟩))

theorem nodup_pairsOf {l : List (V × List V)} (hk : (l.map Prod.fst).Nodup)
    (hn : ∀ p ∈ l, p.2.Nodup) : (pairsOf l).Nodup := by
  induction l with
  | nil => simp [pairsOf]
  | cons p rest ih =>
    obtain ⟨v, ns⟩ := p
    simp only [List.map_cons, List.nodup_cons] at hk
    rw [show pairsOf ((v, ns) :: rest) = ns.map (fun n => (v, n)) ++ pairsOf rest from rfl,
      List.nodup_append]
    refine ⟨?_, ih hk.2 (fun q hq => hn q (List.mem_cons_of_mem _ hq)), ?_⟩
    · refine (hn (v, ns) (List.mem_cons_self _ _)).map ?_
      intro a b hab
      simpa using congrArg Prod.snd hab
    · intro x hx
      rcases List.mem_map.mp hx with ⟨n, hn2, he⟩
      subst he
      intro hmem
      rcases mem_pairsOf.mp hmem with ⟨ns', h2, -⟩
      exact hk.1 (List.mem_map.mpr ⟨(v, ns'), h2, rfl⟩)

theorem adjGetL_eq_of_mem {l : List (V × List V)} {a : V} {ns : List V}
    (hk : (l.map Prod.fst).Nodup) (h : (a, ns) ∈ l) : adjGetL l a = ns := by
  induction l with
  | nil => simp at h
  | cons p rest ih =>
    obtain ⟨k, ns0⟩ := p
    simp only [List.map_cons, List.nodup_cons] at hk
    rcases List.mem_cons.mp h with h1 | h1
    · rw [Prod.mk.injEq] at h1
      rw [show adjGetL ((k, ns0) :: rest) a = if k = a then ns0 else adjGetL rest a from rfl,
        if_pos h1.1.symm, h1.2]
    · have hka : ¬k = a := by
        intro he
        apply hk.1
        rw [he]
        exact List.mem_map.mpr ⟨(a, ns), h1, rfl⟩
      rw [show adjGetL ((k, ns0) :: rest) a = if k = a then ns0 else adjGetL rest a from rfl,
        if_neg hka]
      exact ih hk.2 h1

theorem mem_foldl_edgeStep {d : Bool} {L acc : List (V × V)} {r : V × V}
    (h : r ∈ L.foldl (edgeStep d) acc) : r ∈ acc ∨ r ∈ L := by
  induction L generalizing acc with
  | nil => exact Or.inl h
  | cons p L2 ih =>
    rcases ih (by simpa using h) with h1 | h1
    · unfold edgeStep at h1
      split at h1
      · rcases List.mem_append.mp h1 with h2 | h2
        · exact Or.inl h2
        · simp only [List.mem_singleton] at h2
          exact Or.inr (h2 ▸ List.mem_cons_self _ _)
      · split at h1
        · exact Or.inl h1
        · rcases List.mem_append.mp h1 with h2 | h2
          · exact Or.inl h2
          · simp only [List.mem_singleton] at h2
            exact Or.inr (h2 ▸ List.mem_cons_self _ _)
    · exact Or.inr (List.mem_cons_of_mem _ h1)

theorem edgeStep_false (acc : List (V × V)) (a b : V) :
    edgeStep false acc (a, b) = if (b, a) ∈ acc then acc else acc ++ [(a, b)] := by
  unfold edgeStep
  rw [if_neg (by simp)]

theorem foldl_edgeStep_counts (L : List (V × V)) :
    ∀ acc : List (V × V), L.Nodup →
    (∀ p ∈ acc, p ∉ L) →
    (∀ x y : V, x ≠ y → ¬((x, y) ∈ acc ∧ (y, x) ∈ acc)) →
    (∀ p : V × V, countOcc acc p ≤ 1) →
    (∀ x : V, countOcc (L.foldl (edgeStep false) acc) (x, x) =
      if (x, x) ∈ L ∨ (x, x) ∈ acc then 1 else 0) ∧
    (∀ x y : V, x ≠ y →
      countOcc (L.foldl (edgeStep false) acc) (x, y)
        + countOcc (L.foldl (edgeStep false) acc) (y, x) =
        if (x, y) ∈ L ∨ (y, x) ∈ L ∨ countOcc acc (x, y) + countOcc acc (y, x) = 1
        then 1 else 0) := by
  induction L with
  | nil =>
    intro acc _ _ hdisj hacc1
    constructor
    · intro x
      simp only [List.foldl_nil, List.not_mem_nil, false_or]
      by_cases hq : (x, x) ∈ acc
      · rw [if_pos hq]
        have h1 := countOcc_pos_iff.mpr hq
        have h2 := hacc1 (x, x)
        omega
      · rw [if_neg hq, countOcc_eq_zero hq]
    · intro x y hxy
      simp only [List.foldl_nil, List.not_mem_nil, false_or]
      have hS : countOcc acc (x, y) + countOcc acc (y, x) ≤ 1 := by
        by_cases hmem : (x, y) ∈ acc
        · have hsw : (y, x) ∉ acc := fun hsw => hdisj x y hxy ⟨hmem, hsw⟩
          have := hacc1 (x, y)
          rw [countOcc_eq_zero hsw]
          omega
        · rw [countOcc_eq_zero hmem]
          have := hacc1 (y, x)
          omega
      by_cases hone : countOcc acc (x, y) + countOcc acc (y, x) = 1
      · rw [if_pos hone, hone]
      · rw [if_neg hone]
        omega
  | cons p L2 ih =>
    obtain ⟨a, b⟩ := p
    intro acc hnd hacc hdisj hacc1
    rw [List.nodup_cons] at hnd
    have hpL : (a, b) ∉ acc := fun hmem => hacc (a, b) hmem (List.mem_cons_self _ _)
    have hstep : ((a, b) :: L2).foldl (edgeStep false) acc
        = L2.foldl (edgeStep false) (edgeStep false acc (a, b)) := by
      simp
    by_cases hskip : (b, a) ∈ acc
    · -- the reverse pair was already emitted: the accumulator is unchanged
      have hacc' : edgeStep false acc (a, b) = acc := by
        rw [edgeStep_false, if_pos hskip]
      have IH := ih acc hnd.2
        (fun r hr => fun hrL => hacc r hr (List.mem_cons_of_mem _ hrL)) hdisj hacc1
      constructor
      · intro x
        rw [hstep, hacc', IH.1 x]
        by_cases hqp : (x, x) = (a, b)
        · -- a skipped diagonal pair is impossible: its reverse is itself
          exfalso
          rw [Prod.mk.injEq] at hqp
          have hab : (a, b) = (b, a) := by
            rw [hqp.2.symm.trans hqp.1]
          apply hpL
          rw [hab]
          exact hskip
        · have h1 : ((x, x) ∈ (a, b) :: L2 ∨ (x, x) ∈ acc) ↔
              ((x, x) ∈ L2 ∨ (x, x) ∈ acc) := by
            simp [List.mem_cons, hqp]
          rw [if_congr h1 rfl rfl]
      · intro x y hxy
        rw [hstep, hacc', IH.2 x y hxy]
        by_cases hqp : (x, y) = (a, b)
        · rw [Prod.mk.injEq] at hqp
          obtain ⟨rfl, rfl⟩ := hqp
          have hc1 : (x, y) ∈ (x, y) :: L2 ∨ (y, x) ∈ (x, y) :: L2 ∨
              countOcc acc (x, y) + countOcc acc (y, x) = 1 :=
            Or.inl (List.mem_cons_self _ _)
          have hc2 : (x, y) ∈ L2 ∨ (y, x) ∈ L2 ∨
              countOcc acc (x, y) + countOcc acc (y, x) = 1 := by
            right; right
            have h1 := countOcc_pos_iff.mpr hskip
            have h2 := hacc1 (y, x)
            rw [countOcc_eq_zero hpL]
            omega
          rw [if_pos hc1, if_pos hc2]
        · by_cases hqsp : (y, x) = (a, b)
          · rw [Prod.mk.injEq] at hqsp
            obtain ⟨rfl, rfl⟩ := hqsp
            have hc1 : (x, y) ∈ (y, x) :: L2 ∨ (y, x) ∈ (y, x) :: L2 ∨
                countOcc acc (x, y) + countOcc acc (y, x) = 1 :=
              Or.inr (Or.inl (List.mem_cons_self _ _))
            have hc2 : (x, y) ∈ L2 ∨ (y, x) ∈ L2 ∨
                countOcc acc (x, y) + countOcc acc (y, x) = 1 := by
              right; right
              have h1 : (x, y) ∈ acc := hskip
              have h2 := countOcc_pos_iff.mpr h1
              have h3 : (y, x) ∉ acc := fun hmem => hdisj x y hxy ⟨h1, hmem⟩
              rw [countOcc_eq_zero h3]
              have := hacc1 (x, y)
              omega
            rw [if_pos hc1, if_pos hc2]
          · have h1 : ((x, y) ∈ (a, b) :: L2 ∨ (y, x) ∈ (a, b) :: L2 ∨
                countOcc acc (x, y) + countOcc acc (y, x) = 1) ↔
                ((x, y) ∈ L2 ∨ (y, x) ∈ L2 ∨
                  countOcc acc (x, y) + countOcc acc (y, x) = 1) := by
              simp [List.mem_cons, hqp, hqsp]
            rw [if_congr h1 rfl rfl]
    · -- fresh pair: it is appended
      have hacc' : edgeStep false acc (a, b) = acc ++ [(a, b)] := by
        rw [edgeStep_false, if_neg hskip]
      have hmain : ∀ r ∈ acc ++ [(a, b)], r ∉ L2 := by
        intro r hr
        rcases List.mem_append.mp hr with h1 | h1
        · exact fun hrL => hacc r h1 (List.mem_cons_of_mem _ hrL)
        · simp only [List.mem_singleton] at h1
          exact h1 ▸ hnd.1
      have hdisj' : ∀ x y : V, x ≠ y →
          ¬((x, y) ∈ acc ++ [(a, b)] ∧ (y, x) ∈ acc ++ [(a, b)]) := by
        intro x y hxy ⟨hr1, hr2⟩
        rcases List.mem_append.mp hr1 with ha1 | ha1 <;>
          rcases List.mem_append.mp hr2 with ha2 | ha2
        · exact hdisj x y hxy ⟨ha1, ha2⟩
        · simp only [List.mem_singleton, Prod.mk.injEq] at ha2
          obtain ⟨rfl, rfl⟩ := ha2
          exact hskip ha1
        · simp only [List.mem_singleton, Prod.mk.injEq] at ha1
          obtain ⟨rfl, rfl⟩ := ha1
          exact hskip ha2
        · simp only [List.mem_singleton, Prod.mk.injEq] at ha1 ha2
          exact hxy (ha1.1.trans ha2.1.symm)
      have hacc1' : ∀ r : V × V, countOcc (acc ++ [(a, b)]) r ≤ 1 := by
        intro r
        by_cases hrp : r = (a, b)
        · subst hrp
          rw [countOcc_self_append, countOcc_eq_zero hpL]
        · rw [countOcc_ne _ (fun h => hrp h.symm)]
          exact hacc1 r
      have IH := ih (acc ++ [(a, b)]) hnd.2 hmain hdisj' hacc1'
      constructor
      · intro x
        rw [hstep, hacc', IH.1 x]
        by_cases hqp : (x, x) = (a, b)
        · rw [if_pos (Or.inr (List.mem_append.mpr (Or.inr (List.mem_singleton.mpr hqp)))),
            if_pos (Or.inl (show (x, x) ∈ (a, b) :: L2 by rw [hqp]; exact List.mem_cons_self _ _))]
        · have h1 : ((x, x) ∈ L2 ∨ (x, x) ∈ acc ++ [(a, b)]) ↔
              ((x, x) ∈ (a, b) :: L2 ∨ (x, x) ∈ acc) := by
            simp [List.mem_cons, List.mem_append, hqp]
          rw [if_congr h1 rfl rfl]
      · intro x y hxy
        rw [hstep, hacc', IH.2 x y hxy]
        by_cases hqp : (x, y) = (a, b)
        · rw [Prod.mk.injEq] at hqp
          obtain ⟨rfl, rfl⟩ := hqp
          have hyx : (y, x) ≠ (x, y) := fun h => hxy (congrArg Prod.fst h).symm
          have hc2 : (x, y) ∈ L2 ∨ (y, x) ∈ L2 ∨
              countOcc (acc ++ [(x, y)]) (x, y) + countOcc (acc ++ [(x, y)]) (y, x) = 1 := by
            right; right
            rw [countOcc_self_append, countOcc_eq_zero hpL,
              countOcc_ne _ hyx.symm, countOcc_eq_zero hskip]
          rw [if_pos hc2, if_pos (Or.inl (List.mem_cons_self _ _))]
        · by_cases hqsp : (y, x) = (a, b)
          · have hq2 := hqsp
            rw [Prod.mk.injEq] at hq2
            have hba : (b, a) = (x, y) := by rw [← hq2.2, ← hq2.1]
            have hqnacc : (x, y) ∉ acc := by rw [← hba]; exact hskip
            have hpL2 : (y, x) ∉ acc := by rw [hqsp]; exact hpL
            rw [← hqsp]
            have hxy2 : (x, y) ≠ (y, x) := fun h => hxy (congrArg Prod.fst h)
            have hc2 : (x, y) ∈ L2 ∨ (y, x) ∈ L2 ∨
                countOcc (acc ++ [(y, x)]) (x, y)
                  + countOcc (acc ++ [(y, x)]) (y, x) = 1 := by
              right; right
              rw [countOcc_ne _ hxy2.symm, countOcc_eq_zero hqnacc,
                countOcc_self_append, countOcc_eq_zero hpL2]
            rw [if_pos hc2, if_pos (Or.inr (Or.inl (List.mem_cons_self _ _)))]
          · have hq1 : countOcc (acc ++ [(a, b)]) (x, y) = countOcc acc (x, y) :=
              countOcc_ne _ (fun h => hqp h.symm)
            have hq2 : countOcc (acc ++ [(a, b)]) (y, x) = countOcc acc (y, x) :=
              countOcc_ne _ (fun h => hqsp h.symm)
            have h1 : ((x, y) ∈ L2 ∨ (y, x) ∈ L2 ∨
                countOcc (acc ++ [(a, b)]) (x, y)
                  + countOcc (acc ++ [(a, b)]) (y, x) = 1) ↔
                ((x, y) ∈ (a, b) :: L2 ∨ (y, x) ∈ (a, b) :: L2 ∨
                  countOcc acc (x, y) + countOcc acc (y, x) = 1) := by
              rw [hq1, hq2]
              simp [List.mem_cons, hqp, hqsp]
            rw [if_congr h1 rfl rfl]
/-- Claim C7: on an undirected graph with duplicate-free dict keys and
neighbor lists, `get_edges` reports only genuine edges, reports each
undirected edge `{u, v}` exactly once across the two orientations, and
reports a self-loop exactly once. -/
theorem get_edges_undirected_once (g : Graph V) (hd : g.directed = false)
    (hk : KeysNodup g) (hn : NbrsNodup g) :
    (∀ u v : V, (u, v) ∈ get_edges g → has_edge g u v = true) ∧
    (∀ u v : V, u ≠ v → has_edge g u v = true →
      countOcc (get_edges g) (u, v) + countOcc (get_edges g) (v, u) = 1) ∧
    (∀ u : V, has_edge g u u = true → countOcc (get_edges g) (u, u) = 1) := by
  have hfold := foldl_edgeStep_counts (pairsOf g.adjacency_list) []
    (nodup_pairsOf hk hn) (by simp) (by simp) (by intro p; simp [countOcc])
  have hpair : ∀ u v : V, has_edge g u v = true → (u, v) ∈ pairsOf g.adjacency_list := by
    intro u v he
    rw [has_edge_iff_mem] at he
    exact mem_pairsOf.mpr ⟨adjGetL g.adjacency_list u,
      adjGetL_mem_entries (hasKey_of_mem_adjGetL he), he⟩
  have hge : get_edges g = (pairsOf g.adjacency_list).foldl (edgeStep false) [] := by
    rw [get_edges_eq_foldl, hd]
  refine ⟨?_, ?_, ?_⟩
  · intro u v hmem
    rw [hge] at hmem
    rcases mem_foldl_edgeStep hmem with h1 | h1
    · simp at h1
    · rcases mem_pairsOf.mp h1 with ⟨ns, h2, h3⟩
      rw [has_edge_iff_mem, adjGetL_eq_of_mem hk h2]
      exact h3
  · intro u v huv he
    rw [hge, hfold.2 u v huv, if_pos (Or.inl (hpair u v he))]
  · intro u he
    rw [hge, hfold.1 u, if_pos (Or.inl (hpair u u he))]

/-- Claim C7 witness: applied on the demo graph's edge `A–B` and on a
self-loop graph. -/
theorem get_edges_undirected_once_witness :
    (exampleGraph.directed = false ∧ KeysNodup exampleGraph ∧ NbrsNodup exampleGraph) ∧
    ("A" ≠ "B" ∧ has_edge exampleGraph "A" "B" = true ∧
      countOcc (get_edges exampleGraph) ("A", "B")
        + countOcc (get_edges exampleGraph) ("B", "A") = 1) ∧
    (has_edge (add_edge (Graph.empty false) "X" "X") "X" "X" = true ∧
      countOcc (get_edges (add_edge (Graph.empty false) "X" "X")) ("X", "X") = 1) :=
  ⟨⟨by decide, by unfold KeysNodup; decide, by unfold NbrsNodup; decide⟩,
    ⟨by decide, by decide,
      (get_edges_undirected_once exampleGraph (by decide)
        (by unfold KeysNodup; decide) (by unfold NbrsNodup; decide)).2.1
        "A" "B" (by decide) (by decide)⟩,
    by decide,
    (get_edges_undirected_once (add_edge (Graph.empty false) "X" "X") (by decide)
      (by unfold KeysNodup; decide) (by unfold NbrsNodup; decide)).2.2 "X" (by decide)⟩

/-! Fuel-potential lemmas: every traversal loop iteration strictly decreases
`queue.length + potL`, so the chosen fuel is never exhausted. -/

theorem potL_nil (vis : List V) : potL ([] : List (V × List V)) vis = 0 := rfl

theorem potL_cons (p : V × List V) (rest : List (V × List V)) (vis : List V) :
    potL (p :: rest) vis = (if p.1 ∉ vis then entrySize p else 0) + potL rest vis := by
  unfold potL
  by_cases h : p.1 ∉ vis
  · rw [List.filter_cons, if_pos (by simpa using h), if_pos h]
    simp
  · rw [List.filter_cons, if_neg (by simpa using h), if_neg h]
    simp

theorem potL_mono {l : List (V × List V)} {vis vis' : List V}
    (h : ∀ x, x ∈ vis → x ∈ vis') : potL l vis' ≤ potL l vis := by
  induction l with
  | nil => simp [potL_nil]
  | cons p rest ih =>
    rw [potL_cons, potL_cons]
    have : (if p.1 ∉ vis' then entrySize p else 0) ≤ (if p.1 ∉ vis then entrySize p else 0) := by
      by_cases h1 : p.1 ∉ vis'
      · rw [if_pos h1, if_pos (fun hm => h1 (h _ hm))]
      · rw [if_neg h1]
        omega
    omega

theorem potL_insert_le (l : List (V × List V)) (vis : List V) (v : V) :
    potL l (v :: vis) ≤ potL l vis :=
  potL_mono (fun x hx => List.mem_cons_of_mem v hx)

theorem potL_visit {l : List (V × List V)} {vis : List V} {v : V}
    (hv : v ∉ vis) (hk : hasKey l v = true) :
    potL l (v :: vis) + 1 + (adjGetL l v).length ≤ potL l vis := by
  induction l with
  | nil => simp [hasKey] at hk
  | cons p rest ih =>
    obtain ⟨k, ns⟩ := p
    rw [potL_cons, potL_cons]
    by_cases hkv : k = v
    · subst hkv
      rw [show adjGetL ((k, ns) :: rest) k = ns from by simp [adjGetL]]
      have h1 : ¬((k, ns).1 ∉ k :: vis) := by simp
      have h2 : (k, ns).1 ∉ vis := hv
      rw [if_neg h1, if_pos h2]
      have h3 := potL_insert_le rest vis k
      simp only [entrySize]
      omega
    · have hk2 : hasKey rest v = true := by
        rw [show hasKey ((k, ns) :: rest) v = if k = v then true else hasKey rest v from rfl,
          if_neg hkv] at hk
        exact hk
      rw [show adjGetL ((k, ns) :: rest) v = adjGetL rest v from by simp [adjGetL, hkv]]
      have heq : ((k, ns).1 ∉ v :: vis) ↔ ((k, ns).1 ∉ vis) := by
        simp [List.mem_cons, hkv]
      have := ih hk2
      by_cases hkin : (k, ns).1 ∉ vis
      · rw [if_pos hkin, if_pos (heq.mpr hkin)]
        omega
      · rw [if_neg hkin, if_neg (fun h => hkin (heq.mp h))]
        omega

theorem potL_le_sum (l : List (V × List V)) (vis : List V) :
    potL l vis ≤ (l.map entrySize).sum := by
  induction l with
  | nil => simp [potL_nil]
  | cons p rest ih =>
    rw [potL_cons, List.map_cons, List.sum_cons]
    by_cases h1 : p.1 ∉ vis
    · rw [if_pos h1]
      omega
    · rw [if_neg h1]
      omega

/-- The combined decrease lemma: popping a fresh vertex `v` and pushing its
not-yet-visited neighbors lowers `length + potL` by at least one, whether or
not `v` is a genuine key. -/
theorem potL_fresh_step (g : Graph V) {vis : List V} {v : V} (hv : v ∉ vis)
    (ns : List V) (hns : ns.length ≤ (adjGetL g.adjacency_list v).length) :
    ns.length + potL g.adjacency_list (v :: vis) < 1 + potL g.adjacency_list vis := by
  cases hk : hasKey g.adjacency_list v
  · have : adjGetL g.adjacency_list v = [] := adjGetL_of_not_hasKey hk
    rw [this] at hns
    simp only [List.length_nil, Nat.le_zero] at hns
    rw [hns]
    have := potL_insert_le g.adjacency_list vis v
    omega
  · have := potL_visit hv hk
    omega

/-! Reachability lemmas. -/

theorem Reachable.refl (g : Graph V) (v : V) : Reachable g v v :=
  ⟨0, ReachableN.refl v⟩

theorem reachableN_prepend {g : Graph V} {u w x : V} {n : Nat}
    (h : ReachableN g w n x) (hw : w ∈ adjGetL g.adjacency_list u) :
    ReachableN g u (n + 1) x := by
  induction h with
  | refl => exact ReachableN.step (ReachableN.refl u) hw
  | step d hx ih => exact ReachableN.step ih hx

theorem reachable_prepend {g : Graph V} {u w x : V}
    (hw : w ∈ adjGetL g.adjacency_list u) (h : Reachable g w x) :
    Reachable g u x := by
  obtain ⟨n, hn⟩ := h
  exact ⟨n + 1, reachableN_prepend hn hw⟩

theorem reachable_mem_closed {g : Graph V} {vis : List V}
    (hcl : ∀ a ∈ vis, ∀ y ∈ adjGetL g.adjacency_list a, y ∈ vis)
    {u x : V} (hu : u ∈ vis) (h : Reachable g u x) : x ∈ vis := by
  obtain ⟨n, hn⟩ := h
  induction hn with
  | refl => exact hu
  | step d hx ih => exact hcl _ ih _ hx

/-! Correctness of `bfs` with no target: it visits exactly the reachable
vertices, each once. -/

theorem bfsLoop_cons_eq (g : Graph V) (target : Option V) (fuel : Nat)
    (v : V) (q vis res : List V) :
    bfsLoop g target (fuel + 1) (v :: q) vis res =
      (if v ∈ vis then bfsLoop g target fuel q vis res
       else if target = some v then res ++ [v]
       else bfsLoop g target fuel
         (q ++ (adjGetL g.adjacency_list v).filter (fun n => decide (n ∉ v :: vis)))
         (v :: vis) (res ++ [v])) := rfl

theorem bfsLoop_nil_eq (g : Graph V) (target : Option V) (fuel : Nat)
    (vis res : List V) : bfsLoop g target (fuel + 1) [] vis res = res := rfl

theorem bfsLoop_subset (g : Graph V) :
    ∀ (fuel : Nat) (q vis res : List V),
      q.length + potL g.adjacency_list vis < fuel →
      ∀ x, x ∈ bfsLoop g none fuel q vis res →
        x ∈ res ∨ ∃ w, w ∈ q ∧ Reachable g w x := by
  intro fuel
  induction fuel with
  | zero =>
    intro q vis res hfuel
    omega
  | succ fuel ih =>
    intro q vis res hfuel x hx
    match q with
    | [] =>
      rw [bfsLoop_nil_eq] at hx
      exact Or.inl hx
    | v :: q' =>
      rw [bfsLoop_cons_eq, if_neg (by simp : ¬(none : Option V) = some v)] at hx
      simp only [List.length_cons] at hfuel
      by_cases hv : v ∈ vis
      · rw [if_pos hv] at hx
        rcases ih q' vis res (by omega) x hx with h | ⟨w, hw, hr⟩
        · exact Or.inl h
        · exact Or.inr ⟨w, List.mem_cons_of_mem _ hw, hr⟩
      · rw [if_neg hv] at hx
        have hlen : ((adjGetL g.adjacency_list v).filter
            (fun n => decide (n ∉ v :: vis))).length ≤ (adjGetL g.adjacency_list v).length :=
          List.length_filter_le _ _
        have hstep := potL_fresh_step g hv
          ((adjGetL g.adjacency_list v).filter (fun n => decide (n ∉ v :: vis))) hlen
        rcases ih _ _ _ (by simp only [List.length_append]; omega) x hx with h | ⟨w, hw, hr⟩
        · rcases List.mem_append.mp h with h1 | h1
          · exact Or.inl h1
          · simp only [List.mem_singleton] at h1
            exact Or.inr ⟨v, List.mem_cons_self _ _, h1 ▸ Reachable.refl g v⟩
        · rcases List.mem_append.mp hw with h1 | h1
          · exact Or.inr ⟨w, List.mem_cons_of_mem _ h1, hr⟩
          · have hw2 : w ∈ adjGetL g.adjacency_list v := (List.mem_filter.mp h1).1
            exact Or.inr ⟨v, List.mem_cons_self _ _, reachable_prepend hw2 hr⟩

theorem bfsLoop_complete (g : Graph V) :
    ∀ (fuel : Nat) (q vis res : List V),
      q.length + potL g.adjacency_list vis < fuel →
      (∀ a ∈ vis, ∀ y ∈ adjGetL g.adjacency_list a, y ∈ vis ∨ y ∈ q) →
      (∀ a ∈ vis, a ∈ res) →
      ∀ u x, (u ∈ vis ∨ u ∈ q) → Reachable g u x →
        x ∈ bfsLoop g none fuel q vis res := by
  intro fuel
  induction fuel with
  | zero =>
    intro q vis res hfuel
    omega
  | succ fuel ih =>
    intro q vis res hfuel hcl hres u x hu hr
    match q with
    | [] =>
      rw [bfsLoop_nil_eq]
      have hu2 : u ∈ vis := by
        rcases hu with h | h
        · exact h
        · simp at h
      have hclosed : ∀ a ∈ vis, ∀ y ∈ adjGetL g.adjacency_list a, y ∈ vis := by
        intro a ha y hy
        rcases hcl a ha y hy with h | h
        · exact h
        · simp at h
      exact hres x (reachable_mem_closed hclosed hu2 hr)
    | v :: q' =>
      rw [bfsLoop_cons_eq, if_neg (by simp : ¬(none : Option V) = some v)]
      simp only [List.length_cons] at hfuel
      by_cases hv : v ∈ vis
      · rw [if_pos hv]
        refine ih q' vis res (by omega) ?_ hres u x ?_ hr
        · intro a ha y hy
          rcases hcl a ha y hy with h | h
          · exact Or.inl h
          · rcases List.mem_cons.mp h with h1 | h1
            · exact Or.inl (h1 ▸ hv)
            · exact Or.inr h1
        · rcases hu with h | h
          · exact Or.inl h
          · rcases List.mem_cons.mp h with h1 | h1
            · exact Or.inl (h1 ▸ hv)
            · exact Or.inr h1
      · rw [if_neg hv]
        have hlen : ((adjGetL g.adjacency_list v).filter
            (fun n => decide (n ∉ v :: vis))).length ≤ (adjGetL g.adjacency_list v).length :=
          List.length_filter_le _ _
        have hstep := potL_fresh_step g hv
          ((adjGetL g.adjacency_list v).filter (fun n => decide (n ∉ v :: vis))) hlen
        refine ih _ _ _ (by simp only [List.length_append]; omega) ?_ ?_ u x ?_ hr
        · intro a ha y hy
          rcases List.mem_cons.mp ha with h1 | h1
          · subst h1
            by_cases hyv : y ∈ a :: vis
            · exact Or.inl hyv
            · exact Or.inr (List.mem_append.mpr (Or.inr
                (List.mem_filter.mpr ⟨hy, decide_eq_true hyv⟩)))
          · rcases hcl a h1 y hy with h2 | h2
            · exact Or.inl (List.mem_cons_of_mem _ h2)
            · rcases List.mem_cons.mp h2 with h3 | h3
              · exact Or.inl (h3 ▸ List.mem_cons_self _ _)
              · exact Or.inr (List.mem_append.mpr (Or.inl h3))
        · intro a ha
          rcases List.mem_cons.mp ha with h1 | h1
          · exact List.mem_append.mpr (Or.inr (by simp [h1]))
          · exact List.mem_append.mpr (Or.inl (hres a h1))
        · rcases hu with h | h
          · exact Or.inl (List.mem_cons_of_mem _ h)
          · rcases List.mem_cons.mp h with h1 | h1
            · exact Or.inl (h1 ▸ List.mem_cons_self _ _)
            · exact Or.inr (List.mem_append.mpr (Or.inl h1))

theorem bfsLoop_nodup (g : Graph V) :
    ∀ (fuel : Nat) (q vis res : List V),
      q.length + potL g.adjacency_list vis < fuel →
      res.Nodup → (∀ a, a ∈ res ↔ a ∈ vis) →
      (bfsLoop g none fuel q vis res).Nodup := by
  intro fuel
  induction fuel with
  | zero =>
    intro q vis res hfuel
    omega
  | succ fuel ih =>
    intro q vis res hfuel hnd hiff
    match q with
    | [] =>
      rw [bfsLoop_nil_eq]
      exact hnd
    | v :: q' =>
      rw [bfsLoop_cons_eq, if_neg (by simp : ¬(none : Option V) = some v)]
      simp only [List.length_cons] at hfuel
      by_cases hv : v ∈ vis
      · rw [if_pos hv]
        exact ih q' vis res (by omega) hnd hiff
      · rw [if_neg hv]
        have hlen : ((adjGetL g.adjacency_list v).filter
            (fun n => decide (n ∉ v :: vis))).length ≤ (adjGetL g.adjacency_list v).length :=
          List.length_filter_le _ _
        have hstep := potL_fresh_step g hv
          ((adjGetL g.adjacency_list v).filter (fun n => decide (n ∉ v :: vis))) hlen
        refine ih _ _ _ (by simp only [List.length_append]; omega) ?_ ?_
        · rw [List.nodup_append]
          refine ⟨hnd, List.nodup_singleton v, ?_⟩
          rw [List.disjoint_singleton]
          exact fun hmem => hv ((hiff v).mp hmem)
        · intro a
          rw [List.mem_append, List.mem_singleton, List.mem_cons, hiff a, or_comm]

/-- Claim C3: on a graph whose adjacency lists mention only genuine keys (as
every API-built graph does) and a present start vertex, `bfs(start)` with no
target returns exactly the vertices reachable from `start`, each exactly
once. -/
theorem bfs_visits_reachable_once (g : Graph V) (start : V) (hc : ClosedG g)
    (hs : has_vertex g start = true) :
    (∀ x, x ∈ bfs g start none ↔ Reachable g start x) ∧
    (bfs g start none).Nodup := by
  have hkey : hasKey g.adjacency_list start = true := hs
  have hbfs : bfs g start none
      = bfsLoop g none (traverseFuel g) [start] [] [] := by
    unfold bfs
    rw [if_pos hkey]
  have hfuel : [start].length + potL g.adjacency_list [] < traverseFuel g := by
    have := potL_le_sum g.adjacency_list []
    unfold traverseFuel
    simp only [List.length_singleton]
    omega
  constructor
  · intro x
    constructor
    · intro hx
      rw [hbfs] at hx
      rcases bfsLoop_subset g (traverseFuel g) [start] [] [] hfuel x hx with h | ⟨w, hw, hr⟩
      · simp at h
      · simp only [List.mem_singleton] at hw
        exact hw ▸ hr
    · intro hr
      rw [hbfs]
      exact bfsLoop_complete g (traverseFuel g) [start] [] [] hfuel
        (by intro a ha; simp at ha) (by intro a ha; simp at ha) start x
        (Or.inr (List.mem_singleton.mpr rfl)) hr
  · rw [hbfs]
    exact bfsLoop_nodup g (traverseFuel g) [start] [] [] hfuel (List.nodup_nil)
      (by intro a; simp)

/-- Claim C3 witness: applied on the demo graph from `A`; its conclusion at
the reachable vertex `F`. -/
theorem bfs_visits_reachable_once_witness :
    (ClosedG exampleGraph ∧ has_vertex exampleGraph "A" = true) ∧
    ("F" ∈ bfs exampleGraph "A" none ↔ Reachable exampleGraph "A" "F") ∧
    (bfs exampleGraph "A" none).Nodup :=
  ⟨⟨by unfold ClosedG; decide, by decide⟩,
    (bfs_visits_reachable_once exampleGraph "A" (by unfold ClosedG; decide)
      (by decide)).1 "F",
    (bfs_visits_reachable_once exampleGraph "A" (by unfold ClosedG; decide)
      (by decide)).2⟩

/-! Equivalence of the iterative and recursive depth-first traversals. -/

theorem dfsLoop_cons_eq (g : Graph V) (target : Option V) (fuel : Nat)
    (v : V) (s vis res : List V) :
    dfsLoop g target (fuel + 1) (v :: s) vis res =
      (if v ∈ vis then dfsLoop g target fuel s vis res
       else if target = some v then res ++ [v]
       else dfsLoop g target fuel
         ((adjGetL g.adjacency_list v).filter (fun n => decide (n ∉ v :: vis)) ++ s)
         (v :: vis) (res ++ [v])) := rfl

theorem dfsLoop_nil_eq (g : Graph V) (target : Option V) (fuel : Nat)
    (vis res : List V) : dfsLoop g target (fuel + 1) [] vis res = res := rfl

theorem dfsVisit_succ_eq (g : Graph V) (target : Option V) (fuel : Nat)
    (v : V) (vis res : List V) :
    dfsVisit g target (fuel + 1) v vis res =
      (if v ∈ vis then (vis, res, false)
       else if target = some v then (v :: vis, res ++ [v], true)
       else visitFold (dfsVisit g target fuel) (adjGetL g.adjacency_list v)
         (v :: vis) (res ++ [v])) := rfl

theorem visitFold_nil_eq (visit : V → List V → List V → List V × List V × Bool)
    (vis res : List V) : visitFold visit [] vis res = (vis, res, false) := rfl

theorem visitFold_cons_eq (visit : V → List V → List V → List V × List V × Bool)
    (n : V) (ns vis res : List V) :
    visitFold visit (n :: ns) vis res =
      (if n ∈ vis then visitFold visit ns vis res
       else match visit n vis res with
         | (vis1, res1, true) => (vis1, res1, true)
         | (vis1, res1, false) => visitFold visit ns vis1 res1) := rfl

theorem visitFold_mono {visit : V → List V → List V → List V × List V × Bool}
    (hmono : ∀ n vis res, ∀ x ∈ vis, x ∈ (visit n vis res).1) :
    ∀ (l vis res : List V), ∀ x ∈ vis, x ∈ (visitFold visit l vis res).1 := by
  intro l
  induction l with
  | nil =>
    intro vis res x hx
    exact hx
  | cons n ns ih =>
    intro vis res x hx
    rw [visitFold_cons_eq]
    by_cases hn : n ∈ vis
    · rw [if_pos hn]
      exact ih vis res x hx
    · rw [if_neg hn]
      rcases hv : visit n vis res with ⟨vis1, res1, b⟩
      have hx1 : x ∈ vis1 := by
        have := hmono n vis res x hx
        rw [hv] at this
        exact this
      cases b
      · exact ih vis1 res1 x hx1
      · exact hx1

theorem dfsVisit_mono (g : Graph V) (target : Option V) :
    ∀ (fuel : Nat) (v : V) (vis res : List V), ∀ x ∈ vis,
      x ∈ (dfsVisit g target fuel v vis res).1 := by
  intro fuel
  induction fuel with
  | zero =>
    intro v vis res x hx
    exact hx
  | succ fuel ih =>
    intro v vis res x hx
    rw [dfsVisit_succ_eq]
    by_cases hv : v ∈ vis
    · rw [if_pos hv]
      exact hx
    · rw [if_neg hv]
      by_cases ht : target = some v
      · rw [if_pos ht]
        exact List.mem_cons_of_mem _ hx
      · rw [if_neg ht]
        exact visitFold_mono ih _ _ _ x (List.mem_cons_of_mem _ hx)

theorem mem_allNeighbors {l : List (V × List V)} {k x : V} {ns : List V}
    (h : (k, ns) ∈ l) (hx : x ∈ ns) : x ∈ allNeighbors l := by
  induction l with
  | nil => simp at h
  | cons p rest ih =>
    rw [show allNeighbors (p :: rest) = p.2 ++ allNeighbors rest from by
      obtain ⟨a, b⟩ := p; rfl]
    rcases List.mem_cons.mp h with h1 | h1
    · exact List.mem_append.mpr (Or.inl (by rw [← h1]; exact hx))
    · exact List.mem_append.mpr (Or.inr (ih h1))

theorem mem_universe_of_adjGet {g : Graph V} {w x : V}
    (h : x ∈ adjGetL g.adjacency_list w) : x ∈ universeList g := by
  have hk : hasKey g.adjacency_list w = true := hasKey_of_mem_adjGetL h
  exact List.mem_append.mpr (Or.inr (mem_allNeighbors (adjGetL_mem_entries hk) h))

theorem unseen_lt_of_fresh {g : Graph V} {v : V} {vis : List V}
    (hv : v ∈ universeList g) (hnv : v ∉ vis) :
    unseen g (v :: vis) < unseen g vis := by
  unfold unseen
  rw [List.toFinset_cons, Finset.sdiff_insert]
  refine Finset.card_erase_lt_of_mem ?_
  rw [Finset.mem_sdiff]
  exact ⟨List.mem_toFinset.mpr hv, fun hm => hnv (List.mem_toFinset.mp hm)⟩

theorem unseen_mono {g : Graph V} {vis vis' : List V}
    (h : ∀ x ∈ vis, x ∈ vis') : unseen g vis' ≤ unseen g vis := by
  unfold unseen
  refine Finset.card_le_card ?_
  intro x hx
  rw [Finset.mem_sdiff] at hx ⊢
  exact ⟨hx.1, fun hm => hx.2 (List.mem_toFinset.mpr (h x (List.mem_toFinset.mp hm)))⟩

theorem dfsLoop_stable (g : Graph V) (t : Option V) :
    ∀ (fuel fuel' : Nat) (s vis res : List V),
      s.length + potL g.adjacency_list vis < fuel →
      s.length + potL g.adjacency_list vis < fuel' →
      dfsLoop g t fuel s vis res = dfsLoop g t fuel' s vis res := by
  intro fuel
  induction fuel with
  | zero =>
    intro fuel' s vis res h1
    omega
  | succ fuel ih =>
    intro fuel' s vis res h1 h2
    match fuel', s with
    | 0, s => omega
    | fuel' + 1, [] => rw [dfsLoop_nil_eq, dfsLoop_nil_eq]
    | fuel' + 1, v :: s' =>
      rw [dfsLoop_cons_eq, dfsLoop_cons_eq]
      simp only [List.length_cons] at h1 h2
      by_cases hv : v ∈ vis
      · rw [if_pos hv, if_pos hv]
        exact ih fuel' s' vis res (by omega) (by omega)
      · rw [if_neg hv, if_neg hv]
        by_cases ht : t = some v
        · rw [if_pos ht, if_pos ht]
        · rw [if_neg ht, if_neg ht]
          have hlen : ((adjGetL g.adjacency_list v).filter
              (fun n => decide (n ∉ v :: vis))).length
              ≤ (adjGetL g.adjacency_list v).length := List.length_filter_le _ _
          have hstep := potL_fresh_step g hv
            ((adjGetL g.adjacency_list v).filter (fun n => decide (n ∉ v :: vis))) hlen
          exact ih fuel' _ _ _ (by simp only [List.length_append]; omega)
            (by simp only [List.length_append]; omega)

theorem dfsVisit_stable (g : Graph V) (t : Option V) :
    ∀ (fuel fuel' : Nat) (v : V) (vis res : List V),
      v ∈ universeList g → unseen g vis < fuel → fuel ≤ fuel' →
      dfsVisit g t fuel v vis res = dfsVisit g t fuel' v vis res := by
  intro fuel
  induction fuel with
  | zero =>
    intro fuel' v vis res hv h1
    omega
  | succ fuel ih =>
    intro fuel' v vis res hv h1 h2
    match fuel' with
    | 0 => omega
    | fuel' + 1 =>
      rw [dfsVisit_succ_eq, dfsVisit_succ_eq]
      by_cases hvis : v ∈ vis
      · rw [if_pos hvis, if_pos hvis]
      · rw [if_neg hvis, if_neg hvis]
        by_cases ht : t = some v
        · rw [if_pos ht, if_pos ht]
        · rw [if_neg ht, if_neg ht]
          -- pointwise congruence of the two folds over states extending `v :: vis`
          have hsmall : unseen g (v :: vis) < fuel := by
            have := unseen_lt_of_fresh hv hvis
            omega
          have key : ∀ (l : List V), (∀ n ∈ l, n ∈ universeList g) →
              ∀ (vis1 res1 : List V), (∀ x ∈ v :: vis, x ∈ vis1) →
              visitFold (dfsVisit g t fuel) l vis1 res1
                = visitFold (dfsVisit g t fuel') l vis1 res1 := by
            intro l
            induction l with
            | nil =>
              intro _ vis1 res1 _
              rw [visitFold_nil_eq, visitFold_nil_eq]
            | cons n ns ihl =>
              intro hlU vis1 res1 hext
              rw [visitFold_cons_eq, visitFold_cons_eq]
              by_cases hn : n ∈ vis1
              · rw [if_pos hn, if_pos hn]
                exact ihl (fun m hm => hlU m (List.mem_cons_of_mem _ hm)) vis1 res1 hext
              · rw [if_neg hn, if_neg hn]
                have hnU : n ∈ universeList g := hlU n (List.mem_cons_self _ _)
                have hfuel1 : unseen g vis1 < fuel := by
                  have := unseen_mono (g := g) hext
                  omega
                have heq : dfsVisit g t fuel n vis1 res1
                    = dfsVisit g t fuel' n vis1 res1 :=
                  ih fuel' n vis1 res1 hnU hfuel1 (by omega)
                rw [← heq]
                rcases hvn : dfsVisit g t fuel n vis1 res1 with ⟨vis2, res2, b⟩
                have hext2 : ∀ x ∈ v :: vis, x ∈ vis2 := by
                  intro x hx
                  have := dfsVisit_mono g t fuel n vis1 res1 x (hext x hx)
                  rw [hvn] at this
                  exact this
                cases b
                · exact ihl (fun m hm => hlU m (List.mem_cons_of_mem _ hm)) vis2 res2 hext2
                · rfl
          exact key (adjGetL g.adjacency_list v)
            (fun n hn => mem_universe_of_adjGet hn) (v :: vis) (res ++ [v])
            (fun x hx => hx)

theorem visitFold_filter {visit : V → List V → List V → List V × List V × Bool}
    (hmono : ∀ n vis res, ∀ x ∈ vis, x ∈ (visit n vis res).1) :
    ∀ (l vis0 vis res : List V), (∀ x ∈ vis0, x ∈ vis) →
      visitFold visit (l.filter (fun n => decide (n ∉ vis0))) vis res
        = visitFold visit l vis res := by
  intro l
  induction l with
  | nil =>
    intro vis0 vis res _
    rfl
  | cons n ns ih =>
    intro vis0 vis res hsub
    by_cases hn0 : n ∈ vis0
    · rw [List.filter_cons, if_neg (by simpa using hn0), visitFold_cons_eq,
        if_pos (hsub n hn0)]
      exact ih vis0 vis res hsub
    · rw [List.filter_cons, if_pos (by simpa using hn0), visitFold_cons_eq,
        visitFold_cons_eq]
      by_cases hn : n ∈ vis
      · rw [if_pos hn, if_pos hn]
        exact ih vis0 vis res hsub
      · rw [if_neg hn, if_neg hn]
        rcases hv : visit n vis res with ⟨vis1, res1, b⟩
        have hsub1 : ∀ x ∈ vis0, x ∈ vis1 := by
          intro x hx
          have := hmono n vis res x (hsub x hx)
          rw [hv] at this
          exact this
        cases b
        · exact ih vis0 vis1 res1 hsub1
        · rfl

theorem visitFold_singleton (visit : V → List V → List V → List V × List V × Bool)
    (x : V) (vis res : List V) :
    visitFold visit [x] vis res =
      (if x ∈ vis then (vis, res, false) else visit x vis res) := by
  rw [visitFold_cons_eq]
  by_cases hx : x ∈ vis
  · rw [if_pos hx, if_pos hx, visitFold_nil_eq]
  · rw [if_neg hx, if_neg hx]
    rcases hv : visit x vis res with ⟨vis1, res1, b⟩
    cases b <;> rfl

/-- Main equivalence: running the iterative stack loop on `l ++ s` is the
same as recursively visiting the vertices of `l` in order (with
`dfs_helper`'s short-circuit on the target) and then continuing the stack
loop on `s` from the resulting state. -/
theorem dfsLoop_eq_visitFold (g : Graph V) (t : Option V) :
    ∀ (frec : Nat) (l s vis res : List V) (fit : Nat),
      (∀ x ∈ l, x ∈ universeList g) →
      (l ++ s).length + potL g.adjacency_list vis < fit →
      unseen g vis < frec →
      dfsLoop g t fit (l ++ s) vis res =
        (if (visitFold (dfsVisit g t frec) l vis res).2.2 then
          (visitFold (dfsVisit g t frec) l vis res).2.1
         else dfsLoop g t
           (s.length + potL g.adjacency_list (visitFold (dfsVisit g t frec) l vis res).1 + 1)
           s (visitFold (dfsVisit g t frec) l vis res).1
           (visitFold (dfsVisit g t frec) l vis res).2.1) := by
  intro frec
  induction frec with
  | zero =>
    intro l s vis res fit hl hfit hfrec
    omega
  | succ fr ihO =>
    intro l
    induction l with
    | nil =>
      intro s vis res fit hl hfit hfrec
      rw [visitFold_nil_eq]
      simp only [List.nil_append] at hfit ⊢
      rw [if_neg (by simp)]
      exact dfsLoop_stable g t fit _ s vis res hfit (by omega)
    | cons n l' ihI =>
      intro s vis res fit hl hfit hfrec
      have hnU : n ∈ universeList g := hl n (List.mem_cons_self _ _)
      obtain ⟨fit', rfl⟩ : ∃ k, fit = k + 1 := by
        refine ⟨fit - 1, ?_⟩
        simp only [List.cons_append, List.length_cons] at hfit
        omega
      rw [List.cons_append, dfsLoop_cons_eq, visitFold_cons_eq]
      simp only [List.cons_append, List.length_cons] at hfit
      by_cases hn : n ∈ vis
      · rw [if_pos hn, if_pos hn]
        exact ihI s vis res fit' (fun x hx => hl x (List.mem_cons_of_mem _ hx))
          (by simp only [List.length_append] at hfit ⊢; omega) hfrec
      · rw [if_neg hn, if_neg hn, dfsVisit_succ_eq, if_neg hn]
        by_cases ht : t = some n
        · rw [if_pos ht, if_pos ht]
          rfl
        · rw [if_neg ht, if_neg ht]
          have hlen : ((adjGetL g.adjacency_list n).filter
              (fun m => decide (m ∉ n :: vis))).length
              ≤ (adjGetL g.adjacency_list n).length := List.length_filter_le _ _
          have hstep := potL_fresh_step g hn
            ((adjGetL g.adjacency_list n).filter (fun m => decide (m ∉ n :: vis))) hlen
          have hfrec2 : unseen g (n :: vis) < fr := by
            have := unseen_lt_of_fresh hnU hn
            omega
          have hLHS := ihO ((adjGetL g.adjacency_list n).filter
              (fun m => decide (m ∉ n :: vis))) (l' ++ s) (n :: vis) (res ++ [n]) fit'
            (fun x hx => mem_universe_of_adjGet (List.mem_filter.mp hx).1)
            (by simp only [List.length_append] at hfit ⊢; omega) hfrec2
          rw [hLHS, visitFold_filter (dfsVisit_mono g t fr) (adjGetL g.adjacency_list n)
            (n :: vis) (n :: vis) (res ++ [n]) (fun x hx => hx)]
          rcases hr1 : visitFold (dfsVisit g t fr) (adjGetL g.adjacency_list n)
            (n :: vis) (res ++ [n]) with ⟨vis1, res1, b1⟩
          have hvis1 : ∀ x ∈ n :: vis, x ∈ vis1 := by
            intro x hx
            have := visitFold_mono (dfsVisit_mono g t fr)
              (adjGetL g.adjacency_list n) (n :: vis) (res ++ [n]) x hx
            rw [hr1] at this
            exact this
          cases b1
          · -- target not found inside the subtree of `n`: continue with `l'`
            simp only
            rw [if_neg (by simp)]
            have hihI := ihI s vis1 res1 ((l' ++ s).length + potL g.adjacency_list vis1 + 1)
              (fun x hx => hl x (List.mem_cons_of_mem _ hx))
              (by omega)
              (by
                have h1 := unseen_mono (g := g) hvis1
                omega)
            exact hihI
          · -- target found: both sides return the result so far
            simp only
            rw [if_pos (by simp), if_pos (by simp)]

/-- Claim C2: on any graph whose adjacency lists mention only genuine keys
(as every API-built graph does), the iterative `dfs` and the recursive
`dfs_recursive` return identical sequences, for every start vertex and every
optional target. -/
theorem dfs_iter_eq_recursive (g : Graph V) (start : V) (t : Option V)
    (hc : ClosedG g) : dfs g start t = dfs_recursive g start t := by
  unfold dfs dfs_recursive
  by_cases hk : hasKey g.adjacency_list start
  · rw [if_pos hk, if_pos hk]
    have hl : ∀ x ∈ [start], x ∈ universeList g := by
      intro x hx
      simp only [List.mem_singleton] at hx
      subst hx
      exact List.mem_append.mpr (Or.inl (hasKey_iff_mem.mp hk))
    have hfit : (([start] ++ []).length + potL g.adjacency_list [] < traverseFuel g) := by
      have := potL_le_sum g.adjacency_list []
      unfold traverseFuel
      simp only [List.append_nil, List.length_singleton]
      omega
    have hfrec : unseen g [] < recFuel g := by
      unfold unseen recFuel
      have := List.toFinset_card_le (universeList g)
      simp only [List.toFinset_nil, Finset.sdiff_empty]
      omega
    have hE := dfsLoop_eq_visitFold g t (recFuel g) [start] [] [] [] (traverseFuel g)
      hl hfit hfrec
    rw [List.append_nil] at hE
    rw [hE, visitFold_singleton, if_neg (by simp : (start : V) ∉ ([] : List V))]
    rcases hv : dfsVisit g t (recFuel g) start [] [] with ⟨vis1, res1, b⟩
    cases b
    · simp only
      rw [if_neg (by simp), dfsLoop_nil_eq]
    · simp only
      rw [if_pos (by simp)]
  · rw [if_neg hk, if_neg hk]

/-- Claim C2 witness: applied on the demo graph from `A` with no target. -/
theorem dfs_iter_eq_recursive_witness :
    ClosedG exampleGraph ∧
    dfs exampleGraph "A" none = dfs_recursive exampleGraph "A" none :=
  ⟨by unfold ClosedG; decide,
    dfs_iter_eq_recursive exampleGraph "A" none (by unfold ClosedG; decide)⟩

/-! Shortest-distance lemmas. -/

theorem reachableN_zero {g : Graph V} {u v : V} (h : ReachableN g u 0 v) :
    u = v := by
  cases h
  rfl

theorem reachableN_succ {g : Graph V} {u x : V} {n : Nat}
    (h : ReachableN g u (n + 1) x) :
    ∃ w, ReachableN g u n w ∧ x ∈ adjGetL g.adjacency_list w := by
  cases h with
  | step d hx => exact ⟨_, d, hx⟩

theorem shortestLen_unique {g : Graph V} {u v : V} {a b : Nat}
    (ha : ShortestLen g u v a) (hb : ShortestLen g u v b) : a = b :=
  Nat.le_antisymm (ha.2 b hb.1) (hb.2 a ha.1)

theorem shortestLen_self (g : Graph V) (s : V) : ShortestLen g s s 0 :=
  ⟨ReachableN.refl s, fun m _ => Nat.zero_le m⟩

theorem shortestLen_zero_eq {g : Graph V} {s v : V}
    (h : ShortestLen g s v 0) : v = s := (reachableN_zero h.1).symm

theorem shortestLen_exists {g : Graph V} {u v : V} (h : Reachable g u v) :
    ∃ n, ShortestLen g u v n := by
  obtain ⟨n, hn⟩ := h
  induction n using Nat.strong_induction_on with
  | _ n ih =>
    by_cases hmin : ∃ m, m < n ∧ ReachableN g u m v
    · obtain ⟨m, hm, hr⟩ := hmin
      exact ih m hm hr
    · refine ⟨n, hn, fun m hm => ?_⟩
      by_contra hlt
      exact hmin ⟨m, by omega, hm⟩

theorem shortestLen_decompose {g : Graph V} {s v : V} {k : Nat}
    (h : ShortestLen g s v (k + 1)) :
    ∃ w, v ∈ adjGetL g.adjacency_list w ∧ ShortestLen g s w k := by
  obtain ⟨w, hw, hv⟩ := reachableN_succ h.1
  refine ⟨w, hv, hw, fun m hm => ?_⟩
  by_contra hlt
  have : ReachableN g s (m + 1) v := ReachableN.step hm hv
  have := h.2 (m + 1) this
  omega

theorem shortestLen_le_of_reachableN {g : Graph V} {s v : V} {k m : Nat}
    (h : ShortestLen g s v k) (hm : ReachableN g s m v) : k ≤ m := h.2 m hm

/-! Parent-dict lemmas. -/

theorem lookupP_append (P : List (V × Option V)) (n : V) (pv : Option V) (x : V) :
    lookupP (P ++ [(n, pv)]) x =
      (match lookupP P x with
       | some r => some r
       | none => if n = x then some pv else none) := by
  induction P with
  | nil => rfl
  | cons p rest ih =>
    obtain ⟨k, kv⟩ := p
    by_cases hk : k = x
    · rw [show lookupP (((k, kv) :: rest) ++ [(n, pv)]) x = some kv from by
        simp [lookupP, hk], show lookupP ((k, kv) :: rest) x = some kv from by
        simp [lookupP, hk]]
    · rw [show lookupP (((k, kv) :: rest) ++ [(n, pv)]) x
          = lookupP (rest ++ [(n, pv)]) x from by simp [lookupP, hk],
        show lookupP ((k, kv) :: rest) x = lookupP rest x from by simp [lookupP, hk]]
      exact ih

theorem lookupP_isSome_iff {P : List (V × Option V)} {x : V} :
    (lookupP P x).isSome = true ↔ x ∈ P.map Prod.fst := by
  induction P with
  | nil => simp [lookupP]
  | cons p rest ih =>
    obtain ⟨k, kv⟩ := p
    by_cases hk : k = x
    · simp [lookupP, hk]
    · have hk2 : ¬x = k := fun h => hk h.symm
      simp [lookupP, hk, hk2, ih]

theorem lookupP_append_of_isSome {P : List (V × Option V)} {x : V}
    (h : (lookupP P x).isSome = true) (n : V) (pv : Option V) :
    lookupP (P ++ [(n, pv)]) x = lookupP P x := by
  rw [lookupP_append]
  rcases hl : lookupP P x with - | r
  · rw [hl] at h
    simp at h
  · rfl

theorem lookupP_append_self {P : List (V × Option V)} {n : V}
    (h : ¬(lookupP P n).isSome = true) (pv : Option V) :
    lookupP (P ++ [(n, pv)]) n = some pv := by
  rw [lookupP_append]
  rcases hl : lookupP P n with - | r
  · simp
  · rw [hl] at h
    simp at h

/-! Path reconstruction: `buildPath` follows parent links from a discovered
vertex back to `start`, producing the reversed shortest path. -/

theorem buildPath_spec (g : Graph V) (start : V) (P : List (V × Option V))
    (hps : lookupP P start = some none)
    (hchain : ∀ w pv, lookupP P w = some pv → w ≠ start →
      ∃ w2 k, pv = some w2 ∧ w ∈ adjGetL g.adjacency_list w2 ∧
        (lookupP P w2).isSome = true ∧ ShortestLen g start w2 k ∧
        ShortestLen g start w (k + 1)) :
    ∀ (k : Nat) (v : V) (fuel : Nat), ShortestLen g start v k →
      (lookupP P v).isSome = true → k < fuel →
      (buildPath P fuel v).length = k + 1 ∧
      (buildPath P fuel v).head? = some v ∧
      (buildPath P fuel v).getLast? = some start ∧
      List.Chain' (fun a b => has_edge g b a = true) (buildPath P fuel v) := by
  intro k
  induction k using Nat.strong_induction_on with
  | _ k ih =>
    intro v fuel hsd hlk hfuel
    match k, fuel with
    | k, 0 => omega
    | 0, fuel + 1 =>
      have hv : v = start := shortestLen_zero_eq hsd
      subst hv
      rw [show buildPath P (fuel + 1) v = [v] from by
        rw [show buildPath P (fuel + 1) v
            = (match lookupP P v with
               | some (some prev) => v :: buildPath P fuel prev
               | _ => [v]) from rfl, hps]]
      refine ⟨rfl, rfl, rfl, List.chain'_singleton v⟩
    | k + 1, fuel + 1 =>
      have hvs : v ≠ start := by
        intro he
        subst he
        have := shortestLen_unique hsd (shortestLen_self g v)
        omega
      rcases hl : lookupP P v with - | pv
      · rw [hl] at hlk
        simp at hlk
      · obtain ⟨w2, k2, hpv, hadj, hw2, hsdw2, hsdv⟩ := hchain v pv hl hvs
        subst hpv
        have hk2 : k2 = k := by
          have := shortestLen_unique hsd hsdv
          omega
        subst hk2
        have hrec := ih k2 (by omega) w2 fuel hsdw2 hw2 (by omega)
        have hbp : buildPath P (fuel + 1) v = v :: buildPath P fuel w2 := by
          rw [show buildPath P (fuel + 1) v
              = (match lookupP P v with
                 | some (some prev) => v :: buildPath P fuel prev
                 | _ => [v]) from rfl, hl]
        rw [hbp]
        obtain ⟨hlen, hhead, hlast, hch⟩ := hrec
        match hbw : buildPath P fuel w2 with
        | [] =>
          rw [hbw] at hlen
          simp at hlen
        | b :: bs =>
          rw [hbw] at hlen hhead hlast hch
          have hb : b = w2 := by
            simp only [List.head?_cons, Option.some.injEq] at hhead
            exact hhead
          refine ⟨by simpa using hlen, rfl, ?_, ?_⟩
          · rw [List.getLast?_cons_cons]
            exact hlast
          · rw [List.chain'_cons]
            refine ⟨?_, hch⟩
            rw [hb]
            exact has_edge_iff_mem.mpr hadj

/-- The parent chain from a vertex at distance `k` passes through `k + 1`
distinct recorded vertices, so `k` is below the parent dict's size. -/
theorem chain_card (g : Graph V) (start : V) (P : List (V × Option V))
    (hchain : ∀ w pv, lookupP P w = some pv → w ≠ start →
      ∃ w2 k, pv = some w2 ∧ w ∈ adjGetL g.adjacency_list w2 ∧
        (lookupP P w2).isSome = true ∧ ShortestLen g start w2 k ∧
        ShortestLen g start w (k + 1)) :
    ∀ (k : Nat) (v : V), ShortestLen g start v k →
      (lookupP P v).isSome = true → k < P.length := by
  have main : ∀ (k : Nat) (v : V), ShortestLen g start v k →
      (lookupP P v).isSome = true →
      ∃ S : Finset V, S.card = k + 1 ∧ (∀ x ∈ S, (lookupP P x).isSome = true) ∧
        (∀ x ∈ S, ∃ j, j ≤ k ∧ ShortestLen g start x j) := by
    intro k
    induction k using Nat.strong_induction_on with
    | _ k ih =>
      intro v hsd hlk
      match k with
      | 0 =>
        exact ⟨{v}, Finset.card_singleton v, by simpa using hlk,
          by simp only [Finset.mem_singleton]; rintro x rfl; exact ⟨0, Nat.le_refl 0, hsd⟩⟩
      | k + 1 =>
        have hvs : v ≠ start := by
          intro he
          subst he
          have := shortestLen_unique hsd (shortestLen_self g v)
          omega
        rcases hl : lookupP P v with - | pv
        · rw [hl] at hlk
          simp at hlk
        · obtain ⟨w2, k2, hpv, hadj, hw2, hsdw2, hsdv⟩ := hchain v pv hl hvs
          have hk2 : k2 = k := by
            have := shortestLen_unique hsd hsdv
            omega
          subst hk2
          obtain ⟨S, hcard, hSlk, hSd⟩ := ih k2 (by omega) w2 hsdw2 hw2
          have hvS : v ∉ S := by
            intro hmem
            obtain ⟨j, hj, hsdj⟩ := hSd v hmem
            have := shortestLen_unique hsd hsdj
            omega
          refine ⟨insert v S, ?_, ?_, ?_⟩
          · rw [Finset.card_insert_of_not_mem hvS, hcard]
          · intro x hx
            rcases Finset.mem_insert.mp hx with h | h
            · exact h ▸ hlk
            · exact hSlk x h
          · intro x hx
            rcases Finset.mem_insert.mp hx with h | h
            · exact ⟨k2 + 1, Nat.le_refl _, h ▸ hsd⟩
            · obtain ⟨j, hj, hsdj⟩ := hSd x h
              exact ⟨j, by omega, hsdj⟩
  intro k v hsd hlk
  obtain ⟨S, hcard, hSlk, -⟩ := main k v hsd hlk
  have hsub : S ⊆ (P.map Prod.fst).toFinset := by
    intro x hx
    rw [List.mem_toFinset]
    exact lookupP_isSome_iff.mp (hSlk x hx)
  have h1 := Finset.card_le_card hsub
  have h2 := List.toFinset_card_le (P.map Prod.fst)
  rw [List.length_map] at h2
  omega

theorem unseenKeys_lt_of_fresh {g : Graph V} {n : V} {vis : List V}
    (hk : hasKey g.adjacency_list n = true) (hn : n ∉ vis) :
    unseenKeys g (n :: vis) < unseenKeys g vis := by
  unfold unseenKeys
  rw [List.toFinset_cons, Finset.sdiff_insert]
  refine Finset.card_erase_lt_of_mem ?_
  rw [Finset.mem_sdiff]
  exact ⟨List.mem_toFinset.mpr (hasKey_iff_mem.mp hk),
    fun hm => hn (List.mem_toFinset.mp hm)⟩

theorem chain_flip_reverse {R : V → V → Prop} {l : List V}
    (h : List.Chain' (fun a b => R b a) l) : List.Chain' R l.reverse := by
  rw [List.chain'_reverse]
  exact h

theorem scanNbrs_nil_eq (v target : V) (vis : List V) (P : List (V × Option V))
    (q : List V) : scanNbrs v target [] vis P q = Sum.inr (vis, P, q) := rfl

theorem scanNbrs_cons_eq (v target n : V) (ns vis : List V)
    (P : List (V × Option V)) (q : List V) :
    scanNbrs v target (n :: ns) vis P q =
      (if n ∈ vis then scanNbrs v target ns vis P q
       else if n = target then
         Sum.inl (buildPath (P ++ [(n, some v)]) (P ++ [(n, some v)]).length n).reverse
       else scanNbrs v target ns (n :: vis) (P ++ [(n, some v)]) (q ++ [n])) := rfl

/-- One dequeue step of `bfs_path`: scanning the neighbors of a vertex `v` at
frontier distance `D` either discovers the target — returning a valid
shortest path — or extends the visited set, parent dict and queue while
preserving the invariant. -/
theorem scanNbrs_spec (g : Graph V) (hc : ClosedG g) (start target v : V) (D : Nat) :
    ∀ (ns pre vis q : List V) (P : List (V × Option V)),
      adjGetL g.adjacency_list v = pre ++ ns →
      (∀ n ∈ pre, n ∈ vis) →
      v ∈ vis → v ∉ q → ShortestLen g start v D →
      q.Nodup → (∀ x ∈ q, x ∈ vis) → start ∈ vis → target ∉ vis →
      (∃ q1 q2, q = q1 ++ q2 ∧ (∀ x ∈ q1, ShortestLen g start x D) ∧
        (∀ x ∈ q2, ShortestLen g start x (D + 1))) →
      (∀ w ∈ vis, ∃ k, k ≤ D + 1 ∧ ShortestLen g start w k) →
      (∀ w ∈ vis, w ∉ q → w ≠ v → ∀ m ∈ adjGetL g.adjacency_list w, m ∈ vis) →
      (∀ u k, ShortestLen g start u k → k ≤ D → u ∈ vis) →
      lookupP P start = some none →
      (∀ x, (lookupP P x).isSome = true ↔ x ∈ vis) →
      (P.map Prod.fst).Nodup →
      (∀ w pv, lookupP P w = some pv → w ≠ start →
        ∃ w2 k, pv = some w2 ∧ w ∈ adjGetL g.adjacency_list w2 ∧
          (lookupP P w2).isSome = true ∧ ShortestLen g start w2 k ∧
          ShortestLen g start w (k + 1)) →
      (∀ path, scanNbrs v target ns vis P q = Sum.inl path →
        ∃ k, ShortestLen g start target k ∧ path.length = k + 1 ∧
          path.head? = some start ∧ path.getLast? = some target ∧
          List.Chain' (fun a b => has_edge g a b = true) path) ∧
      (∀ vis' P' q', scanNbrs v target ns vis P q = Sum.inr (vis', P', q') →
        (∀ x ∈ vis, x ∈ vis') ∧ (∀ x ∈ q, x ∈ q') ∧
        (∀ w, w ∈ vis' → w ∉ vis → w ∈ q') ∧
        (∀ m ∈ pre ++ ns, m ∈ vis') ∧
        v ∉ q' ∧ q'.Nodup ∧ (∀ x ∈ q', x ∈ vis') ∧ target ∉ vis' ∧
        (∃ q1 q2, q' = q1 ++ q2 ∧ (∀ x ∈ q1, ShortestLen g start x D) ∧
          (∀ x ∈ q2, ShortestLen g start x (D + 1))) ∧
        lookupP P' start = some none ∧
        (∀ x, (lookupP P' x).isSome = true ↔ x ∈ vis') ∧
        (P'.map Prod.fst).Nodup ∧
        (∀ w pv, lookupP P' w = some pv → w ≠ start →
          ∃ w2 k, pv = some w2 ∧ w ∈ adjGetL g.adjacency_list w2 ∧
            (lookupP P' w2).isSome = true ∧ ShortestLen g start w2 k ∧
            ShortestLen g start w (k + 1)) ∧
        q'.length + unseenKeys g vis' ≤ q.length + unseenKeys g vis) := by
  intro ns
  induction ns with
  | nil =>
    intro pre vis q P hdec hpre hv hvq hsdv hqnd hqsub hst htv hsplit hvd hproc hlow
      hps hpk hpnd hpch
    constructor
    · intro path hpath
      rw [scanNbrs_nil_eq] at hpath
      simp at hpath
    · intro vis' P' q' heq
      rw [scanNbrs_nil_eq] at heq
      simp only [Sum.inr.injEq, Prod.mk.injEq] at heq
      obtain ⟨h1, h2, h3⟩ := heq
      subst h1
      subst h2
      subst h3
      refine ⟨fun x hx => hx, fun x hx => hx, fun w hw hnw => absurd hw hnw,
        by simpa using hpre, hvq, hqnd, hqsub, htv, hsplit, hps, hpk, hpnd, hpch,
        Nat.le_refl _⟩
  | cons n ns' ih =>
    intro pre vis q P hdec hpre hv hvq hsdv hqnd hqsub hst htv hsplit hvd hproc hlow
      hps hpk hpnd hpch
    have hnadj : n ∈ adjGetL g.adjacency_list v := by
      rw [hdec]
      exact List.mem_append.mpr (Or.inr (List.mem_cons_self _ _))
    have hdec' : adjGetL g.adjacency_list v = (pre ++ [n]) ++ ns' := by
      rw [hdec, List.append_assoc]
      rfl
    by_cases hn : n ∈ vis
    · -- already discovered: skipped
      have hpre' : ∀ m ∈ pre ++ [n], m ∈ vis := by
        intro m hm
        rcases List.mem_append.mp hm with h | h
        · exact hpre m h
        · simp only [List.mem_singleton] at h
          exact h ▸ hn
      have IH := ih (pre ++ [n]) vis q P hdec' hpre' hv hvq hsdv hqnd hqsub hst htv
        hsplit hvd hproc hlow hps hpk hpnd hpch
      rw [scanNbrs_cons_eq, if_pos hn]
      refine ⟨IH.1, ?_⟩
      intro vis' P' q' heq
      obtain ⟨d1, d2, d3, d4, d5, d6, d7, d8, d9, d10, d11, d12, d13, d14⟩ :=
        IH.2 vis' P' q' heq
      refine ⟨d1, d2, d3, ?_, d5, d6, d7, d8, d9, d10, d11, d12, d13, d14⟩
      intro m hm
      refine d4 m ?_
      rw [List.append_assoc]
      simpa using hm
    · -- fresh neighbor: its shortest distance is exactly D + 1
      have hnkey : hasKey g.adjacency_list n = true := closed_adjGetL hc hnadj
      have hreachn : ReachableN g start (D + 1) n := ReachableN.step hsdv.1 hnadj
      have hsdn : ShortestLen g start n (D + 1) := by
        obtain ⟨k, hk⟩ := shortestLen_exists ⟨D + 1, hreachn⟩
        have hle : k ≤ D + 1 := shortestLen_le_of_reachableN hk hreachn
        have hgt : ¬k ≤ D := fun hle2 => hn (hlow n k hk hle2)
        have : k = D + 1 := by omega
        exact this ▸ hk
      have hnstart : n ≠ start := by
        rintro rfl
        exact hn hst
      have hnlkP : ¬(lookupP P n).isSome = true := fun h => hn ((hpk n).mp h)
      -- facts about the extended parent dict
      have hps1 : lookupP (P ++ [(n, some v)]) start = some none := by
        rw [lookupP_append_of_isSome ((hpk start).mpr hst)]
        exact hps
      have hpk1 : ∀ x, (lookupP (P ++ [(n, some v)]) x).isSome = true ↔ x ∈ n :: vis := by
        intro x
        rw [lookupP_append]
        rcases hl : lookupP P x with - | r
        · have hx : x ∉ vis := fun hm => by
            have h2 := (hpk x).mpr hm
            rw [hl] at h2
            simp at h2
          by_cases hnx : n = x
          · subst hnx
            simp
          · have hnx2 : ¬x = n := fun h => hnx h.symm
            simp [hnx, hnx2, hx]
        · have hx : x ∈ vis := (hpk x).mp (by rw [hl]; rfl)
          simp [hx]
      have hpnd1 : ((P ++ [(n, some v)]).map Prod.fst).Nodup := by
        rw [List.map_append]
        rw [List.nodup_append]
        refine ⟨hpnd, by simp, ?_⟩
        intro x hx
        simp only [List.map_cons, List.map_nil, List.mem_singleton]
        rintro rfl
        exact hnlkP (lookupP_isSome_iff.mpr hx)
      have hpch1 : ∀ w pv, lookupP (P ++ [(n, some v)]) w = some pv → w ≠ start →
          ∃ w2 k, pv = some w2 ∧ w ∈ adjGetL g.adjacency_list w2 ∧
            (lookupP (P ++ [(n, some v)]) w2).isSome = true ∧
            ShortestLen g start w2 k ∧ ShortestLen g start w (k + 1) := by
        intro w pv hlw hws
        rw [lookupP_append] at hlw
        rcases hl : lookupP P w with - | r
        · rw [hl] at hlw
          simp only at hlw
          by_cases hnw : n = w
          · rw [if_pos hnw] at hlw
            have hpv : pv = some v := by
              simpa using hlw.symm
            subst hnw
            refine ⟨v, D, hpv, hnadj, ?_, hsdv, hsdn⟩
            rw [lookupP_append_of_isSome ((hpk v).mpr hv)]
            exact (hpk v).mpr hv
          · rw [if_neg hnw] at hlw
            simp at hlw
        · rw [hl] at hlw
          simp only [Option.some.injEq] at hlw
          subst hlw
          obtain ⟨w2, k, hpv, hadj, hw2, hsd2, hsdw⟩ := hpch w r hl hws
          refine ⟨w2, k, hpv, hadj, ?_, hsd2, hsdw⟩
          rw [lookupP_append_of_isSome hw2]
          exact hw2
      by_cases htg : n = target
      · -- the target is discovered: the loop returns the reconstructed path
        rw [scanNbrs_cons_eq, if_neg hn, if_pos htg]
        constructor
        · intro path hpath
          simp only [Sum.inl.injEq] at hpath
          subst hpath
          have hlkn : (lookupP (P ++ [(n, some v)]) n).isSome = true := by
            rw [lookupP_append_self hnlkP]
            rfl
          have hcard := chain_card g start (P ++ [(n, some v)]) hpch1 (D + 1) n hsdn hlkn
          obtain ⟨hlen, hhead, hlast, hchain⟩ := buildPath_spec g start
            (P ++ [(n, some v)]) hps1 hpch1 (D + 1) n (P ++ [(n, some v)]).length
            hsdn hlkn hcard
          refine ⟨D + 1, htg ▸ hsdn, ?_, ?_, ?_, ?_⟩
          · rw [List.length_reverse]
            exact hlen
          · rw [List.head?_reverse]
            exact hlast
          · rw [List.getLast?_reverse]
            rw [hhead, htg]
          · exact chain_flip_reverse hchain
        · intro vis' P' q' heq
          simp at heq
      · -- a fresh non-target neighbor: mark, record parent, enqueue
        rw [scanNbrs_cons_eq, if_neg hn, if_neg htg]
        have hvn : v ≠ n := fun h => hn (h ▸ hv)
        have hnq : n ∉ q := fun h => hn (hqsub n h)
        have htn : target ∉ n :: vis := by
          intro hm
          rcases List.mem_cons.mp hm with h | h
          · exact htg h.symm
          · exact htv h
        have hpre' : ∀ m ∈ pre ++ [n], m ∈ n :: vis := by
          intro m hm
          rcases List.mem_append.mp hm with h | h
          · exact List.mem_cons_of_mem _ (hpre m h)
          · simp only [List.mem_singleton] at h
            exact h ▸ List.mem_cons_self _ _
        obtain ⟨q1, q2, hq12, hq1d, hq2d⟩ := hsplit
        have IH := ih (pre ++ [n]) (n :: vis) (q ++ [n]) (P ++ [(n, some v)]) hdec'
          hpre' (List.mem_cons_of_mem _ hv)
          (by
            intro hm
            rcases List.mem_append.mp hm with h | h
            · exact hvq h
            · simp only [List.mem_singleton] at h
              exact hvn h)
          hsdv
          (by
            rw [List.nodup_append]
            exact ⟨hqnd, List.nodup_singleton n, by
              rw [List.disjoint_singleton]
              exact hnq⟩)
          (by
            intro x hx
            rcases List.mem_append.mp hx with h | h
            · exact List.mem_cons_of_mem _ (hqsub x h)
            · simp only [List.mem_singleton] at h
              exact h ▸ List.mem_cons_self _ _)
          (List.mem_cons_of_mem _ hst) htn
          (by
            refine ⟨q1, q2 ++ [n], by rw [hq12, List.append_assoc], hq1d, ?_⟩
            intro x hx
            rcases List.mem_append.mp hx with h | h
            · exact hq2d x h
            · simp only [List.mem_singleton] at h
              exact h ▸ hsdn)
          (by
            intro w hw
            rcases List.mem_cons.mp hw with h | h
            · exact ⟨D + 1, Nat.le_refl _, h ▸ hsdn⟩
            · exact hvd w h)
          (by
            intro w hw hwq hwv m hm
            rcases List.mem_cons.mp hw with h | h
            · exact absurd (List.mem_append.mpr (Or.inr (by simp [h]))) hwq
            · refine List.mem_cons_of_mem _ (hproc w h ?_ hwv m hm)
              intro hwq2
              exact hwq (List.mem_append.mpr (Or.inl hwq2)))
          (fun u k hu hk => List.mem_cons_of_mem _ (hlow u k hu hk))
          hps1 hpk1 hpnd1 hpch1
        refine ⟨IH.1, ?_⟩
        intro vis' P' q' heq
        obtain ⟨d1, d2, d3, d4, d5, d6, d7, d8, d9, d10, d11, d12, d13, d14⟩ :=
          IH.2 vis' P' q' heq
        have hvis1 : ∀ x ∈ vis, x ∈ vis' := fun x hx => d1 x (List.mem_cons_of_mem _ hx)
        refine ⟨hvis1, ?_, ?_, ?_, d5, d6, d7, d8, d9, d10, d11, d12, d13, ?_⟩
        · intro x hx
          exact d2 x (List.mem_append.mpr (Or.inl hx))
        · intro w hw hnw
          by_cases hwn : w = n
          · rw [hwn]
            exact d2 n (List.mem_append.mpr (Or.inr (List.mem_singleton.mpr rfl)))
          · refine d3 w hw ?_
            intro hm
            rcases List.mem_cons.mp hm with h | h
            · exact hwn h
            · exact hnw h
        · intro m hm
          refine d4 m ?_
          rw [List.append_assoc]
          simpa using hm
        · have hfresh := unseenKeys_lt_of_fresh hnkey hn
          rw [List.length_append, List.length_singleton] at d14
          omega

/-- When the distance-`D` portion of the queue is exhausted, the invariant
can be rebased to frontier distance `D + 1`; in either case the head of the
queue realizes the current frontier distance. -/
theorem pathInv_norm {g : Graph V} {start target v : V} {q' vis : List V}
    {P : List (V × Option V)} {D : Nat}
    (inv : PathInv g start target D (v :: q') vis P) :
    ∃ D2, ShortestLen g start v D2 ∧ PathInv g start target D2 (v :: q') vis P ∧
      ∃ e1 e2, q' = e1 ++ e2 ∧ (∀ x ∈ e1, ShortestLen g start x D2) ∧
        (∀ x ∈ e2, ShortestLen g start x (D2 + 1)) := by
  obtain ⟨q1, q2, hq, h1, h2⟩ := inv.qsplit
  cases q1 with
  | nil =>
    simp only [List.nil_append] at hq
    have hmemq : ∀ x ∈ v :: q', ShortestLen g start x (D + 1) := by
      intro x hx
      exact h2 x (hq ▸ hx)
    have hlow1 : ∀ u k, ShortestLen g start u k → k ≤ D + 1 → u ∈ vis := by
      intro u k hu hk
      rcases Nat.lt_or_ge k (D + 1) with h | h
      · exact inv.low u k hu (by omega)
      · have hk1 : k = D + 1 := by omega
        subst hk1
        obtain ⟨w, hadj, hsdw⟩ := shortestLen_decompose hu
        have hwvis : w ∈ vis := inv.low w D hsdw (Nat.le_refl D)
        have hwq : w ∉ v :: q' := by
          intro hm
          have := shortestLen_unique hsdw (hmemq w hm)
          omega
        exact inv.procd w hwvis hwq u hadj
    refine ⟨D + 1, hmemq v (List.mem_cons_self _ _), ?_, q', [], by simp, ?_, by simp⟩
    · exact {
        qnodup := inv.qnodup
        qsub := inv.qsub
        startvis := inv.startvis
        tnotvis := inv.tnotvis
        qsplit := ⟨v :: q', [], by simp, hmemq, by simp⟩
        visdist := fun w hw => by
          obtain ⟨k, hk, hsd⟩ := inv.visdist w hw
          exact ⟨k, by omega, hsd⟩
        procd := inv.procd
        low := hlow1
        pstart := inv.pstart
        pkeys := inv.pkeys
        pnodup := inv.pnodup
        pchain := inv.pchain }
    · intro x hx
      exact hmemq x (List.mem_cons_of_mem _ hx)
  | cons w q1' =>
    rw [List.cons_append] at hq
    have hv : v = w ∧ q' = q1' ++ q2 := by
      have h1' := congrArg List.head? hq
      have h2' := congrArg List.tail hq
      simp only [List.head?_cons, Option.some.injEq] at h1'
      simp only [List.tail_cons] at h2'
      exact ⟨h1', h2'⟩
    have hsdw : ShortestLen g start w D := h1 w (List.mem_cons_self _ _)
    refine ⟨D, ?_, inv, q1', q2, hv.2,
      fun x hx => h1 x (List.mem_cons_of_mem _ hx), h2⟩
    rw [hv.1]
    exact hsdw

theorem bfsPathLoop_cons_eq (g : Graph V) (target : V) (fuel : Nat) (v : V)
    (q vis : List V) (P : List (V × Option V)) :
    bfsPathLoop g target (fuel + 1) (v :: q) vis P =
      (match scanNbrs v target (adjGetL g.adjacency_list v) vis P q with
       | Sum.inl path => some path
       | Sum.inr (vis1, P1, q1) => bfsPathLoop g target fuel q1 vis1 P1) := rfl

theorem bfsPathLoop_nil_eq (g : Graph V) (target : V) (fuel : Nat)
    (vis : List V) (P : List (V × Option V)) :
    bfsPathLoop g target (fuel + 1) [] vis P = none := rfl

/-- Main loop lemma for `bfs_path`: under the invariant, the loop returns a
valid shortest path whenever the target is reachable, and any path it
returns is a valid path from `start` to `target`. -/
theorem bfsPathLoop_spec (g : Graph V) (hc : ClosedG g) (start target : V) :
    ∀ (fuel : Nat) (q vis : List V) (P : List (V × Option V)) (D : Nat),
      q.length + unseenKeys g vis < fuel →
      PathInv g start target D q vis P →
      (Reachable g start target →
        ∃ p k, bfsPathLoop g target fuel q vis P = some p ∧
          ShortestLen g start target k ∧ p.length = k + 1 ∧
          p.head? = some start ∧ p.getLast? = some target ∧
          List.Chain' (fun a b => has_edge g a b = true) p) ∧
      (∀ p, bfsPathLoop g target fuel q vis P = some p →
        p.head? = some start ∧ p.getLast? = some target ∧
        List.Chain' (fun a b => has_edge g a b = true) p) := by
  intro fuel
  induction fuel with
  | zero =>
    intro q vis P D hfuel
    omega
  | succ fuel ih =>
    intro q vis P D hfuel inv
    match q with
    | [] =>
      constructor
      · intro hreach
        exfalso
        have hclosed : ∀ a ∈ vis, ∀ y ∈ adjGetL g.adjacency_list a, y ∈ vis :=
          fun a ha y hy => inv.procd a ha (by simp) y hy
        exact inv.tnotvis (reachable_mem_closed hclosed inv.startvis hreach)
      · intro p hp
        rw [bfsPathLoop_nil_eq] at hp
        simp at hp
    | v :: q' =>
      obtain ⟨D2, hsdv, inv2, e1, e2, hq', hq1d, hq2d⟩ := pathInv_norm inv
      have hvvis : v ∈ vis := inv2.qsub v (List.mem_cons_self _ _)
      have hnd := List.nodup_cons.mp inv2.qnodup
      have SC := scanNbrs_spec g hc start target v D2 (adjGetL g.adjacency_list v)
        [] vis q' P (by simp) (by simp) hvvis hnd.1 hsdv hnd.2
        (fun x hx => inv2.qsub x (List.mem_cons_of_mem _ hx))
        inv2.startvis inv2.tnotvis ⟨e1, e2, hq', hq1d, hq2d⟩ inv2.visdist
        (by
          intro w hw hwq hwv m hm
          refine inv2.procd w hw ?_ m hm
          intro hmem
          rcases List.mem_cons.mp hmem with h | h
          · exact hwv h
          · exact hwq h)
        inv2.low inv2.pstart inv2.pkeys inv2.pnodup inv2.pchain
      rw [bfsPathLoop_cons_eq]
      rcases hscan : scanNbrs v target (adjGetL g.adjacency_list v) vis P q'
        with path | ⟨vis1, P1, q1⟩
      · obtain ⟨k, hsdt, hlen, hhead, hlast, hchain⟩ := SC.1 path hscan
        constructor
        · intro _
          exact ⟨path, k, rfl, hsdt, hlen, hhead, hlast, hchain⟩
        · intro p hp
          simp only [Option.some.injEq] at hp
          subst hp
          exact ⟨hhead, hlast, hchain⟩
      · obtain ⟨d1, d2, d3, d4, d5, d6, d7, d8, d9, d10, d11, d12, d13, d14⟩ :=
          SC.2 vis1 P1 q1 hscan
        have hprocd : ∀ w ∈ vis1, w ∉ q1 →
            ∀ m ∈ adjGetL g.adjacency_list w, m ∈ vis1 := by
          intro w hw hwq m hm
          by_cases hwv : w = v
          · subst hwv
            exact d4 m (by simpa using hm)
          · by_cases hwvis : w ∈ vis
            · refine d1 m (inv2.procd w hwvis ?_ m hm)
              intro hmem
              rcases List.mem_cons.mp hmem with h | h
              · exact hwv h
              · exact hwq (d2 w h)
            · exact absurd (d3 w hw hwvis) hwq
        have hinv1 : PathInv g start target D2 q1 vis1 P1 := {
          qnodup := d6
          qsub := d7
          startvis := d1 start inv2.startvis
          tnotvis := d8
          qsplit := d9
          visdist := by
            intro w hw
            by_cases hwvis : w ∈ vis
            · exact inv2.visdist w hwvis
            · have hwq := d3 w hw hwvis
              obtain ⟨f1, f2, hf, hf1, hf2⟩ := d9
              rw [hf] at hwq
              rcases List.mem_append.mp hwq with h | h
              · exact ⟨D2, by omega, hf1 w h⟩
              · exact ⟨D2 + 1, Nat.le_refl _, hf2 w h⟩
          procd := hprocd
          low := fun u k hu hk => d1 u (inv2.low u k hu hk)
          pstart := d10
          pkeys := d11
          pnodup := d12
          pchain := d13 }
        have hfuel1 : q1.length + unseenKeys g vis1 < fuel := by
          simp only [List.length_cons] at hfuel
          omega
        have IHres := ih q1 vis1 P1 D2 hfuel1 hinv1
        exact IHres

/-- Claim C1: on a closed graph (the invariant of every API-built graph)
with both endpoints present and the target reachable from the start,
`bfs_path` returns a path whose length minus one is the minimum number of
edges of any walk from start to target. -/
theorem bfs_path_shortest (g : Graph V) (start target : V) (hc : ClosedG g)
    (hs : has_vertex g start = true) (ht : has_vertex g target = true)
    (hr : Reachable g start target) :
    ∃ p n, bfs_path g start target = some p ∧ ShortestLen g start target n ∧
      p.length = n + 1 := by
  have hks : hasKey g.adjacency_list start = true := hs
  have hkt : hasKey g.adjacency_list target = true := ht
  unfold bfs_path
  rw [if_neg (by simp [hks, hkt])]
  by_cases heq : start = target
  · rw [if_pos heq]
    refine ⟨[start], 0, rfl, heq ▸ shortestLen_self g start, rfl⟩
  · rw [if_neg heq]
    have hinv : PathInv g start target 0 [start] [start] [(start, none)] := {
      qnodup := List.nodup_singleton start
      qsub := fun x hx => hx
      startvis := List.mem_singleton.mpr rfl
      tnotvis := by
        rw [List.mem_singleton]
        exact fun h => heq h.symm
      qsplit := ⟨[start], [], by simp, by
        intro x hx
        rw [List.mem_singleton] at hx
        exact hx ▸ shortestLen_self g start, by simp⟩
      visdist := by
        intro w hw
        rw [List.mem_singleton] at hw
        exact ⟨0, by omega, hw ▸ shortestLen_self g start⟩
      procd := by
        intro w hw hwq
        exact absurd hw hwq
      low := by
        intro u k hu hk
        have hk0 : k = 0 := by omega
        subst hk0
        rw [List.mem_singleton]
        exact shortestLen_zero_eq hu
      pstart := by simp [lookupP]
      pkeys := by
        intro x
        by_cases hx : start = x
        · simp [lookupP, hx]
        · have hx2 : ¬x = start := fun h => hx h.symm
          simp [lookupP, hx, hx2]
      pnodup := by simp
      pchain := by
        intro w pv hw hws
        exfalso
        apply hws
        by_cases hsw : start = w
        · exact hsw.symm
        · rw [show lookupP [(start, none)] w = none from by simp [lookupP, hsw]] at hw
          simp at hw }
    have hfuel : [start].length + unseenKeys g [start] < pathFuel g := by
      have h1 : unseenKeys g [start] ≤ g.adjacency_list.length := by
        unfold unseenKeys
        have h2 := Finset.card_le_card
          (Finset.sdiff_subset (s := (g.adjacency_list.map Prod.fst).toFinset)
            (t := [start].toFinset))
        have h3 := List.toFinset_card_le (g.adjacency_list.map Prod.fst)
        rw [List.length_map] at h3
        omega
      unfold pathFuel
      simp only [List.length_singleton]
      omega
    exact ((bfsPathLoop_spec g hc start target (pathFuel g) [start] [start]
      [(start, none)] 0 hfuel hinv).1 hr).imp
      (fun p h => h.imp (fun n hn => ⟨hn.1, hn.2.1, hn.2.2.1⟩))

/-- Claim C1 witness: applied on the demo graph from `A` to `F`. -/
theorem bfs_path_shortest_witness :
    (ClosedG exampleGraph ∧ has_vertex exampleGraph "A" = true ∧
      has_vertex exampleGraph "F" = true ∧ Reachable exampleGraph "A" "F") ∧
    (∃ p n, bfs_path exampleGraph "A" "F" = some p ∧
      ShortestLen exampleGraph "A" "F" n ∧ p.length = n + 1) := by
  have h1 : ReachableN exampleGraph "A" 1 "C" :=
    ReachableN.step (ReachableN.refl "A") (by decide)
  have h2 : ReachableN exampleGraph "A" 2 "F" := ReachableN.step h1 (by decide)
  exact ⟨⟨by unfold ClosedG; decide, by decide, by decide, ⟨2, h2⟩⟩,
    bfs_path_shortest exampleGraph "A" "F" (by unfold ClosedG; decide) (by decide)
      (by decide) ⟨2, h2⟩⟩

/-- Claim C10: whenever `bfs_path` returns a list `p` rather than `None` (on
a closed graph, the invariant of every API-built graph), `p` starts at
`start`, ends at `target`, and every consecutive pair is an edge of the
graph. -/
theorem bfs_path_valid (g : Graph V) (start target : V) (p : List V)
    (hc : ClosedG g) (h : bfs_path g start target = some p) :
    p.head? = some start ∧ p.getLast? = some target ∧
    List.Chain' (fun a b => has_edge g a b = true) p := by
  unfold bfs_path at h
  by_cases habs : hasKey g.adjacency_list start = false ∨
      hasKey g.adjacency_list target = false
  · rw [if_pos habs] at h
    simp at h
  · rw [if_neg habs] at h
    push_neg at habs
    have hks : hasKey g.adjacency_list start = true := by
      have := habs.1
      cases hx : hasKey g.adjacency_list start
      · exact absurd hx this
      · rfl
    by_cases heq : start = target
    · rw [if_pos heq] at h
      simp only [Option.some.injEq] at h
      subst h
      exact ⟨rfl, by rw [heq]; rfl, List.chain'_singleton start⟩
    · rw [if_neg heq] at h
      have hinv : PathInv g start target 0 [start] [start] [(start, none)] := {
        qnodup := List.nodup_singleton start
        qsub := fun x hx => hx
        startvis := List.mem_singleton.mpr rfl
        tnotvis := by
          rw [List.mem_singleton]
          exact fun h2 => heq h2.symm
        qsplit := ⟨[start], [], by simp, by
          intro x hx
          rw [List.mem_singleton] at hx
          exact hx ▸ shortestLen_self g start, by simp⟩
        visdist := by
          intro w hw
          rw [List.mem_singleton] at hw
          exact ⟨0, by omega, hw ▸ shortestLen_self g start⟩
        procd := by
          intro w hw hwq
          exact absurd hw hwq
        low := by
          intro u k hu hk
          have hk0 : k = 0 := by omega
          subst hk0
          rw [List.mem_singleton]
          exact shortestLen_zero_eq hu
        pstart := by simp [lookupP]
        pkeys := by
          intro x
          by_cases hx : start = x
          · simp [lookupP, hx]
          · have hx2 : ¬x = start := fun h2 => hx h2.symm
            simp [lookupP, hx, hx2]
        pnodup := by simp
        pchain := by
          intro w pv hw hws
          exfalso
          apply hws
          by_cases hsw : start = w
          · exact hsw.symm
          · rw [show lookupP [(start, none)] w = none from by simp [lookupP, hsw]] at hw
            simp at hw }
      have hfuel : [start].length + unseenKeys g [start] < pathFuel g := by
        have h1 : unseenKeys g [start] ≤ g.adjacency_list.length := by
          unfold unseenKeys
          have h2 := Finset.card_le_card
            (Finset.sdiff_subset (s := (g.adjacency_list.map Prod.fst).toFinset)
              (t := [start].toFinset))
          have h3 := List.toFinset_card_le (g.adjacency_list.map Prod.fst)
          rw [List.length_map] at h3
          omega
        unfold pathFuel
        simp only [List.length_singleton]
        omega
      exact (bfsPathLoop_spec g hc start target (pathFuel g) [start] [start]
        [(start, none)] 0 hfuel hinv).2 p h

/-- Claim C10 witness: applied on the demo graph's returned path `A–C–F`. -/
theorem bfs_path_valid_witness :
    (ClosedG exampleGraph ∧ bfs_path exampleGraph "A" "F" = some ["A", "C", "F"]) ∧
    ((["A", "C", "F"] : List String).head? = some "A" ∧
      (["A", "C", "F"] : List String).getLast? = some "F" ∧
      List.Chain' (fun a b => has_edge exampleGraph a b = true) ["A", "C", "F"]) :=
  ⟨⟨by unfold ClosedG; decide, by decide⟩,
    bfs_path_valid exampleGraph "A" "F" ["A", "C", "F"] (by unfold ClosedG; decide)
      (by decide)⟩

end GraphPy
